import Mathlib

/-!
Shallow embedding of the `USDCVault` contract (ERC-4626 vault with strategy
fund management) and its companion `StrategyBase` / `MockYieldStrategy`
contracts, together with theorems about the vault's allocation, rebalancing,
withdrawal-routing, harvesting and pausing behaviour.

Modelling conventions:
* `Nat` models `uint256` under Solidity 0.8 checked arithmetic (no silent
  wrap-around; explicit guards model the reverts that matter on the paths
  considered).  `Int` models `int256` PnL values.
* Fallible entry points return `Except String α`; returning `.error e`
  models an EVM revert, which rolls the whole transaction back, so no
  post-state exists for a failed call.
* External strategy contracts are either a faithful embedding of
  `StrategyBase` with the default/mock hooks (funds stay idle), or a
  bricked contract (`broken := true`) every call to which reverts — this
  is the environment the vault's `try/catch` blocks are written against.
* The vault is the sole holder of each strategy's shares (all strategy
  mints are `onlyVault` with the vault as receiver), so a strategy's share
  ledger is represented by its total supply alone.
* OpenZeppelin v5 ERC-4626 share conversion with `_decimalsOffset() = 0`:
  shares = assets·(S+1)/(A+1) and assets = shares·(A+1)/(S+1), rounded
  per operation (down on deposit/redeem previews, up on mint/withdraw).
-/

namespace Vault

abbrev Addr := Nat

/-- `type(uint256).max`. -/
def MAXUINT : Nat := 2 ^ 256 - 1

/-- Pointwise map update, used for Solidity `mapping` writes. -/
def upd {β : Type} (f : Addr → β) (a : Addr) (b : β) : Addr → β :=
  fun x => if x = a then b else f x

/-- OZ `Math.mulDiv(a, b, c, Floor)`. -/
def mulDivDown (a b c : Nat) : Nat := a * b / c

/-- OZ `Math.mulDiv(a, b, c, Ceil)` (for positive `c`). -/
def mulDivUp (a b c : Nat) : Nat := (a * b + (c - 1)) / c

/-- OZ v5 `_convertToShares` over raw totals (offset 0): rounding down. -/
def convToSharesDown (totalA totalS assets : Nat) : Nat :=
  mulDivDown assets (totalS + 1) (totalA + 1)

/-- OZ v5 `_convertToShares`, rounding up (`previewWithdraw`). -/
def convToSharesUp (totalA totalS assets : Nat) : Nat :=
  mulDivUp assets (totalS + 1) (totalA + 1)

/-- OZ v5 `_convertToAssets`, rounding down (`previewRedeem`). -/
def convToAssetsDown (totalA totalS shares : Nat) : Nat :=
  mulDivDown shares (totalA + 1) (totalS + 1)

/-- OZ v5 `_convertToAssets`, rounding up (`previewMint`). -/
def convToAssetsUp (totalA totalS shares : Nat) : Nat :=
  mulDivUp shares (totalA + 1) (totalS + 1)

/-- State of one external strategy contract.

`StrategyBase` with the default (and `MockYieldStrategy`) hooks keeps all
funds idle in the contract: `_deployFunds` is a no-op, `_totalDeployed()`
returns 0 and `_harvest()` returns 0, so the asset balance `idle` is the
whole strategy state besides its share supply.  `broken := true` models an
arbitrary misbehaving/bricked contract: every external call to it reverts.
-/
structure StratState where
  /-- The strategy's `owner()` (an `Ownable` role, set at deployment). -/
  owner : Addr
  /-- The immutable `vault` address bound at construction. -/
  vault : Addr
  /-- `Pausable` flag, toggled by `setEmergencyShutdown`. -/
  paused : Bool
  /-- `asset().balanceOf(strategy)`; with default hooks all funds are idle. -/
  idle : Nat
  /-- Strategy share `totalSupply()`; the vault is the sole holder. -/
  supply : Nat
  /-- Bricked-contract flag: every call to this strategy reverts. -/
  broken : Bool
deriving Repr, DecidableEq

/-- `StrategyBase._totalDeployed()` — default hook, nothing deployed. -/
def totalDeployed (_st : StratState) : Nat := 0

/-- `StrategyBase.totalAssets()` = idle balance + `_totalDeployed()`. -/
def stratTotalAssets (st : StratState) : Nat := st.idle + totalDeployed st

/-- `USDCVault.StrategyInfo`. -/
structure StrategyInfo where
  targetAllocation : Nat
  totalDeposited : Nat
  isActive : Bool
deriving Repr, DecidableEq

/-- State of the `USDCVault` contract together with the asset-token balances
and the external strategy contracts it interacts with. -/
structure VaultState where
  /-- The vault contract's own address (`address(this)`). -/
  vaultAddr : Addr
  /-- The vault's `Ownable` owner. -/
  owner : Addr
  /-- `Pausable` flag, toggled by `setEmergencyShutdown`. -/
  paused : Bool
  /-- `asset().balanceOf(vault)` — the liquid buffer. -/
  buffer : Nat
  /-- Vault share `totalSupply()`. -/
  supply : Nat
  /-- Vault share balances (`balanceOf`). -/
  shares : Addr → Nat
  /-- Asset-token balances of external holders (depositors). -/
  extBal : Addr → Nat
  /-- `_strategies` array. -/
  strategies : List Addr
  /-- `strategyInfo` mapping. -/
  info : Addr → StrategyInfo
  /-- `totalAllocation` (basis points). -/
  totalAllocation : Nat
  /-- `minLiquidity`. -/
  minLiquidity : Nat
  /-- The vault's asset-token approvals to strategies (`approve`). -/
  allowance : Addr → Nat
  /-- The external strategy contracts, by address. -/
  strat : Addr → StratState

/-- Contribution of one `_strategies` entry to `totalAssets()`:
live `try ERC4626(strategy).totalAssets()` with fallback to the recorded
`totalDeposited` when the call reverts; inactive entries contribute 0. -/
def stratContrib (s : VaultState) (a : Addr) : Nat :=
  if (s.info a).isActive then
    if (s.strat a).broken then (s.info a).totalDeposited
    else stratTotalAssets (s.strat a)
  else 0

/-- The accumulator loop inside `USDCVault.totalAssets()`. -/
def strategyAssetsLoop (s : VaultState) : List Addr → Nat → Nat
  | [], acc => acc
  | a :: rest, acc => strategyAssetsLoop s rest (acc + stratContrib s a)

/-- `USDCVault.totalAssets()`: vault buffer plus per-strategy live totals
(with recorded-deposit fallback).  A view function: never reverts. -/
def totalAssets (s : VaultState) : Nat :=
  s.buffer + strategyAssetsLoop s s.strategies 0

/-- `USDCVault._depositToStrategy(strategy, amount)`.

Approves `amount`, then `try ERC4626(strategy).deposit(amount, address(this))`:
the strategy's `deposit` is `whenNotPaused onlyVault` (the vault is the
caller), pulls `amount` from the vault and mints `previewDeposit(amount)`
strategy shares to it; on success the recorded `totalDeposited` grows by
`amount`.  The `catch` branch reverts the whole transaction with
`"strategy deposit failed"`. -/
def depositToStrategy (s : VaultState) (strategy : Addr) (amount : Nat) :
    Except String VaultState :=
  if ¬(s.info strategy).isActive then .error "not active strategy"
  else if amount = 0 then .error "zero amount"
  else if s.buffer < amount then .error "insufficient vault balance"
  else
    let st := s.strat strategy
    if st.broken ∨ st.paused then .error "strategy deposit failed"
    else
      let minted := convToSharesDown (stratTotalAssets st) st.supply amount
      .ok { s with
        buffer := s.buffer - amount,
        strat := upd s.strat strategy
          { st with idle := st.idle + amount, supply := st.supply + minted },
        info := upd s.info strategy
          { s.info strategy with
              totalDeposited := (s.info strategy).totalDeposited + amount },
        -- approve(strategy, amount) followed by the strategy's exact pull
        allowance := upd s.allowance strategy
          (if amount = MAXUINT then MAXUINT else 0) }

/-- `USDCVault._withdrawFromStrategy(strategy, amount)`.

`try ERC4626(strategy).previewWithdraw(amount)` (reverts only for a bricked
strategy, in which case the `catch` branch yields `actualWithdrawn = 0`
with no state change); the resulting share count is clamped to the vault's
strategy-share balance, redeemed, and the recorded `totalDeposited` is
decremented by the assets actually received, clamped at zero. -/
def withdrawFromStrategy (s : VaultState) (strategy : Addr) (amount : Nat) :
    Except String (Nat × VaultState) :=
  if ¬(s.info strategy).isActive then .error "not active strategy"
  else if amount = 0 then .error "zero amount"
  else
    let st := s.strat strategy
    if st.broken then .ok (0, s)
    else
      let sh := min (convToSharesUp (stratTotalAssets st) st.supply amount) st.supply
      let assets := convToAssetsDown (stratTotalAssets st) st.supply sh
      -- the strategy's `redeem` transfers `assets` of its idle balance out
      if st.idle < assets then .error "ERC20InsufficientBalance"
      else
        .ok (assets, { s with
          buffer := s.buffer + assets,
          strat := upd s.strat strategy
            { st with idle := st.idle - assets, supply := st.supply - sh },
          info := upd s.info strategy
            { s.info strategy with
                totalDeposited := (s.info strategy).totalDeposited - assets } })

/-- `USDCVault._emergencyWithdrawFromStrategy(strategy)`.

Redeems the vault's whole strategy-share balance; if that call reverts
(bricked strategy) it falls back to a low-level
`strategy.call("emergencyWithdrawToVault()")`, which is `onlyOwner` on the
strategy side and so succeeds only for a working strategy owned by the
vault.  Every failure is swallowed. -/
def emergencyWithdrawFromStrategy (s : VaultState) (strategy : Addr) : VaultState :=
  let st := s.strat strategy
  let sh := st.supply
  if sh = 0 then s
  else if ¬st.broken then
    let assets := convToAssetsDown (stratTotalAssets st) st.supply sh
    { s with
      buffer := s.buffer + assets,
      strat := upd s.strat strategy
        { st with idle := st.idle - assets, supply := 0 },
      info := upd s.info strategy
        { s.info strategy with totalDeposited := 0 } }
  else
    -- redeem reverted; the low-level call to a bricked strategy fails too,
    -- `success` is false and the bookkeeping is left unchanged
    s

/-- `USDCVault.addStrategy(strategy, targetAllocation)` (onlyOwner). -/
def addStrategy (sender strategy : Addr) (targetAllocation : Nat)
    (s : VaultState) : Except String VaultState :=
  if sender ≠ s.owner then .error "OwnableUnauthorizedAccount"
  else if strategy = 0 then .error "invalid strategy"
  else if (s.info strategy).isActive then .error "already added"
  else if targetAllocation > 10000 then .error "allocation > 100%"
  else if s.totalAllocation + targetAllocation > 10000 then
    .error "total allocation > 100%"
  else
    .ok { s with
      info := upd s.info strategy
        { targetAllocation := targetAllocation, totalDeposited := 0, isActive := true },
      totalAllocation := s.totalAllocation + targetAllocation,
      strategies := s.strategies ++ [strategy],
      allowance := upd s.allowance strategy MAXUINT }

/-- First index of `x` in `l` (the vault's ascending removal scan). -/
def firstIdx : List Addr → Addr → Option Nat
  | [], _ => none
  | b :: rest, x => if b = x then some 0 else (firstIdx rest x).map (· + 1)

/-- The swap-and-pop loop of `USDCVault.removeStrategy`: overwrite the first
occurrence of `x` with the last array element, then pop the last slot
(`none` models reaching `revert("remove failed")`). -/
def swapPop (l : List Addr) (x : Addr) : Option (List Addr) :=
  match firstIdx l x with
  | none => none
  | some i => some ((l.set i ((l.getLast?).getD 0)).dropLast)

/-- `USDCVault.updateStrategyAllocation(strategy, newAllocation)` (onlyOwner).
The guard on `totalAllocation - oldAllocation` models checked `uint256`
subtraction. -/
def updateStrategyAllocation (sender strategy : Addr) (newAllocation : Nat)
    (s : VaultState) : Except String VaultState :=
  if sender ≠ s.owner then .error "OwnableUnauthorizedAccount"
  else if ¬(s.info strategy).isActive then .error "not a strategy"
  else if newAllocation > 10000 then .error "allocation > 100%"
  else if s.totalAllocation < (s.info strategy).targetAllocation then
    .error "arithmetic underflow"
  else if s.totalAllocation - (s.info strategy).targetAllocation + newAllocation
      > 10000 then .error "total allocation > 100%"
  else
    .ok { s with
      totalAllocation :=
        s.totalAllocation - (s.info strategy).targetAllocation + newAllocation,
      info := upd s.info strategy
        { s.info strategy with targetAllocation := newAllocation } }

/-- The deregistration tail of `USDCVault.removeStrategy`, applied to the
state `s1` left by the best-effort emergency withdrawal: weight subtracted
(checked `uint256` subtraction), `isActive` cleared, approval revoked,
swap-and-pop removal from the `_strategies` array. -/
def removeCore (s1 : VaultState) (strategy : Addr) : Except String VaultState :=
  if s1.totalAllocation < (s1.info strategy).targetAllocation then
    .error "arithmetic underflow"
  else
    match swapPop s1.strategies strategy with
    | some l => .ok { s1 with
        totalAllocation := s1.totalAllocation - (s1.info strategy).targetAllocation,
        info := upd s1.info strategy { s1.info strategy with isActive := false },
        allowance := upd s1.allowance strategy 0,
        strategies := l }
    | none => .error "remove failed"

/-- `USDCVault.removeStrategy(strategy)` (onlyOwner): best-effort emergency
withdrawal when the strategy holds recorded deposits, then deregistration. -/
def removeStrategy (sender strategy : Addr) (s : VaultState) :
    Except String VaultState :=
  if sender ≠ s.owner then .error "OwnableUnauthorizedAccount"
  else if ¬(s.info strategy).isActive then .error "not a strategy"
  else removeCore
    (if (s.info strategy).totalDeposited > 0 then
       emergencyWithdrawFromStrategy s strategy
     else s) strategy

/-- The per-strategy body of `USDCVault._autoDeployFunds`: compare the
floor-divided target against the recorded deposit and deposit the shortfall
(clamped to the buffer) or withdraw the excess. -/
def autoDeployLoop (deployable : Nat) : List Addr → VaultState → Except String VaultState
  | [], s => .ok s
  | a :: rest, s =>
    if ¬(s.info a).isActive then autoDeployLoop deployable rest s
    else if deployable * (s.info a).targetAllocation / 10000
        > (s.info a).totalDeposited then
      -- targetAmount > currentAmount: deposit the shortfall, capped by the buffer
      if min (deployable * (s.info a).targetAllocation / 10000
          - (s.info a).totalDeposited) s.buffer > 0 then
        match depositToStrategy s a
            (min (deployable * (s.info a).targetAllocation / 10000
              - (s.info a).totalDeposited) s.buffer) with
        | .ok s' => autoDeployLoop deployable rest s'
        | .error e => .error e
      else autoDeployLoop deployable rest s
    else if deployable * (s.info a).targetAllocation / 10000
        < (s.info a).totalDeposited then
      -- targetAmount < currentAmount: withdraw the excess
      match withdrawFromStrategy s a
          ((s.info a).totalDeposited
            - deployable * (s.info a).targetAllocation / 10000) with
      | .ok (_, s') => autoDeployLoop deployable rest s'
      | .error e => .error e
    else autoDeployLoop deployable rest s

/-- `USDCVault._autoDeployFunds()`: nothing happens unless total managed
assets exceed `minLiquidity`; otherwise the surplus is spread over the
strategies in registry order. -/
def autoDeployFunds (s : VaultState) : Except String VaultState :=
  let total := totalAssets s
  if total ≤ s.minLiquidity then .ok s
  else autoDeployLoop (total - s.minLiquidity) s.strategies s

/-- `USDCVault.rebalance()` (onlyOwner, nonReentrant). -/
def rebalance (sender : Addr) (s : VaultState) : Except String VaultState :=
  if sender ≠ s.owner then .error "OwnableUnauthorizedAccount"
  else autoDeployFunds s

/-- The routing loop of `USDCVault._withdrawFromStrategies`: registry order,
per-strategy request capped by the recorded `totalDeposited`, accumulating
the amounts actually received, stopping once the need is met. -/
def routerLoop (needed : Nat) : List Addr → Nat → VaultState → Except String (Nat × VaultState)
  | [], withdrawn, s => .ok (withdrawn, s)
  | a :: rest, withdrawn, s =>
    if withdrawn ≥ needed then .ok (withdrawn, s)
    else if ¬(s.info a).isActive then routerLoop needed rest withdrawn s
    else
      let toWithdraw := min (needed - withdrawn) (s.info a).totalDeposited
      if toWithdraw > 0 then
        match withdrawFromStrategy s a toWithdraw with
        | .ok (actual, s') => routerLoop needed rest (withdrawn + actual) s'
        | .error e => .error e
      else routerLoop needed rest withdrawn s

/-- `USDCVault._withdrawFromStrategies(needed)`: reverts with the named
liquidity error when the loop recovers less than `needed`. -/
def withdrawFromStrategies (needed : Nat) (s : VaultState) : Except String VaultState :=
  match routerLoop needed s.strategies 0 s with
  | .ok (withdrawn, s') =>
      if withdrawn < needed then .error "insufficient strategy liquidity" else .ok s'
  | .error e => .error e

/-- `USDCVault._beforeWithdraw(assets, _)`. -/
def beforeWithdraw (assets : Nat) (s : VaultState) : Except String VaultState :=
  if s.buffer < assets then withdrawFromStrategies (assets - s.buffer) s else .ok s

-- ============ OZ v5 ERC4626 base operations of the vault ============

/-- `previewDeposit` on the vault (round down). -/
def previewDeposit (s : VaultState) (assets : Nat) : Nat :=
  convToSharesDown (totalAssets s) s.supply assets

/-- `previewMint` on the vault (round up). -/
def previewMint (s : VaultState) (sh : Nat) : Nat :=
  convToAssetsUp (totalAssets s) s.supply sh

/-- `previewWithdraw` on the vault (round up). -/
def previewWithdraw (s : VaultState) (assets : Nat) : Nat :=
  convToSharesUp (totalAssets s) s.supply assets

/-- `previewRedeem` on the vault (round down). -/
def previewRedeem (s : VaultState) (sh : Nat) : Nat :=
  convToAssetsDown (totalAssets s) s.supply sh

/-- OZ `ERC4626.deposit` (`super.deposit`): max-deposit check (the vault
overrides `maxDeposit` to 0 while paused), share preview, asset pull from
the caller, share mint to the receiver. -/
def superDeposit (caller receiver : Addr) (assets : Nat) (s : VaultState) :
    Except String (Nat × VaultState) :=
  if s.paused ∧ assets > 0 then .error "ERC4626ExceededMaxDeposit"
  else if s.extBal caller < assets then .error "ERC20InsufficientBalance"
  else
    .ok (previewDeposit s assets, { s with
      extBal := upd s.extBal caller (s.extBal caller - assets),
      buffer := s.buffer + assets,
      supply := s.supply + previewDeposit s assets,
      shares := upd s.shares receiver (s.shares receiver + previewDeposit s assets) })

/-- OZ `ERC4626.mint` (`super.mint`). -/
def superMint (caller receiver : Addr) (sh : Nat) (s : VaultState) :
    Except String (Nat × VaultState) :=
  if s.paused ∧ sh > 0 then .error "ERC4626ExceededMaxMint"
  else if s.extBal caller < previewMint s sh then .error "ERC20InsufficientBalance"
  else
    .ok (previewMint s sh, { s with
      extBal := upd s.extBal caller (s.extBal caller - previewMint s sh),
      buffer := s.buffer + previewMint s sh,
      supply := s.supply + sh,
      shares := upd s.shares receiver (s.shares receiver + sh) })

/-- OZ `ERC4626.withdraw` (`super.withdraw`) with the share owner acting for
themselves (`caller = owner_`, so no allowance is spent). -/
def superWithdraw (caller receiver : Addr) (assets : Nat) (s : VaultState) :
    Except String (Nat × VaultState) :=
  if assets > convToAssetsDown (totalAssets s) s.supply (s.shares caller) then
    .error "ERC4626ExceededMaxWithdraw"
  else if s.shares caller < previewWithdraw s assets then
    .error "ERC20InsufficientBalance"
  else if s.buffer < assets then .error "ERC20InsufficientBalance"
  else
    .ok (previewWithdraw s assets, { s with
      shares := upd s.shares caller (s.shares caller - previewWithdraw s assets),
      supply := s.supply - previewWithdraw s assets,
      buffer := s.buffer - assets,
      extBal := upd s.extBal receiver (s.extBal receiver + assets) })

/-- OZ `ERC4626.redeem` (`super.redeem`) with the share owner acting for
themselves. -/
def superRedeem (caller receiver : Addr) (sh : Nat) (s : VaultState) :
    Except String (Nat × VaultState) :=
  if sh > s.shares caller then .error "ERC4626ExceededMaxRedeem"
  else if s.buffer < previewRedeem s sh then .error "ERC20InsufficientBalance"
  else
    .ok (previewRedeem s sh, { s with
      shares := upd s.shares caller (s.shares caller - sh),
      supply := s.supply - sh,
      buffer := s.buffer - previewRedeem s sh,
      extBal := upd s.extBal receiver (s.extBal receiver + previewRedeem s sh) })

-- ============ Public vault entry points ============

/-- `USDCVault.deposit` (whenNotPaused, nonReentrant): base deposit followed
by the implicit `_afterDeposit` rebalancing pass. -/
def deposit (caller receiver : Addr) (assets : Nat) (s : VaultState) :
    Except String (Nat × VaultState) :=
  if s.paused then .error "EnforcedPause"
  else do
    let (sh, s1) ← superDeposit caller receiver assets s
    let s2 ← autoDeployFunds s1
    .ok (sh, s2)

/-- `USDCVault.mint` (whenNotPaused, nonReentrant). -/
def mint (caller receiver : Addr) (sh : Nat) (s : VaultState) :
    Except String (Nat × VaultState) :=
  if s.paused then .error "EnforcedPause"
  else do
    let (assets, s1) ← superMint caller receiver sh s
    let s2 ← autoDeployFunds s1
    .ok (assets, s2)

/-- `USDCVault.withdraw` (nonReentrant, available while paused): liquidity
sourcing via `_beforeWithdraw`, then the base withdrawal. -/
def withdraw (caller receiver : Addr) (assets : Nat) (s : VaultState) :
    Except String (Nat × VaultState) := do
  let s1 ← beforeWithdraw assets s
  superWithdraw caller receiver assets s1

/-- `USDCVault.redeem` (nonReentrant, available while paused): previews the
asset amount, sources liquidity, then runs the base redemption. -/
def redeem (caller receiver : Addr) (sh : Nat) (s : VaultState) :
    Except String (Nat × VaultState) := do
  let assets := previewRedeem s sh
  let s1 ← beforeWithdraw assets s
  superRedeem caller receiver sh s1

-- ============ Harvesting ============

/-- `USDCVault.harvestStrategy(strategy)` (`onlyOwner nonReentrant`).

`entered` is the `ReentrancyGuard` status at call time: the guard reverts
when the vault is already inside a `nonReentrant` function (as it is for
the external self-call made by `harvestAll`).  For a working strategy the
low-level `strategy.call("harvest()")` is `onlyOwner` on the strategy side,
so it returns PnL (0 for the default/mock `_harvest`) only when the vault
owns the strategy; otherwise the balance-change fallback compares the
strategy's unchanged `totalAssets` with itself. -/
def harvestStrategy (sender : Addr) (entered : Bool) (strategy : Addr)
    (s : VaultState) : Except String (Int × VaultState) :=
  if sender ≠ s.owner then .error "OwnableUnauthorizedAccount"
  else if entered then .error "ReentrancyGuardReentrantCall"
  else if ¬(s.info strategy).isActive then .error "not a strategy"
  else
    let st := s.strat strategy
    if st.broken then .ok (0, s)
    else if st.owner = s.vaultAddr then
      -- harvest() succeeded and returned int256 pnl = _harvest() = 0
      .ok (0, s)
    else
      -- call failed: fall back to the balance-change check
      let assetsBefore := stratTotalAssets st
      let assetsAfter := stratTotalAssets st
      .ok ((assetsAfter : Int) - (assetsBefore : Int), s)

/-- The loop of `USDCVault.harvestAll`: for each active strategy,
`try this.harvestStrategy(strategy)` — an external call back into the vault
with `msg.sender = address(this)` while the reentrancy guard is held —
accumulating PnL and skipping failures. -/
def harvestAllLoop : List Addr → Int → VaultState → Int × VaultState
  | [], acc, s => (acc, s)
  | a :: rest, acc, s =>
    if (s.info a).isActive then
      match harvestStrategy s.vaultAddr true a s with
      | .ok (pnl, s') => harvestAllLoop rest (acc + pnl) s'
      | .error _ => harvestAllLoop rest acc s
    else harvestAllLoop rest acc s

/-- `USDCVault.harvestAll()` (`onlyOwner nonReentrant`). -/
def harvestAll (sender : Addr) (s : VaultState) : Except String (Int × VaultState) :=
  if sender ≠ s.owner then .error "OwnableUnauthorizedAccount"
  else .ok (harvestAllLoop s.strategies 0 s)

-- ============ StrategyBase entry points (strategy's own contract) ============

/-- `StrategyBase.deposit` (`whenNotPaused onlyVault nonReentrant`):
the result is the minted share count and the new strategy state (the
asset pull from the vault happens on the token ledger). -/
def stratDeposit (sender : Addr) (assets : Nat) (st : StratState) :
    Except String (Nat × StratState) :=
  if st.broken then .error "call reverted"
  else if st.paused then .error "EnforcedPause"
  else if sender ≠ st.vault then .error "BaseStrategy: caller not vault"
  else
    let sh := convToSharesDown (stratTotalAssets st) st.supply assets
    .ok (sh, { st with idle := st.idle + assets, supply := st.supply + sh })

/-- `StrategyBase.mint` (`whenNotPaused onlyVault nonReentrant`). -/
def stratMint (sender : Addr) (sh : Nat) (st : StratState) :
    Except String (Nat × StratState) :=
  if st.broken then .error "call reverted"
  else if st.paused then .error "EnforcedPause"
  else if sender ≠ st.vault then .error "BaseStrategy: caller not vault"
  else
    let assets := convToAssetsUp (stratTotalAssets st) st.supply sh
    .ok (assets, { st with idle := st.idle + assets, supply := st.supply + sh })

/-- `StrategyBase.withdraw` (`onlyVault nonReentrant`, NOT pausable):
the vault is the sole share holder, so its balance is the supply. -/
def stratWithdraw (sender : Addr) (assets : Nat) (st : StratState) :
    Except String (Nat × StratState) :=
  if st.broken then .error "call reverted"
  else if sender ≠ st.vault then .error "BaseStrategy: caller not vault"
  else if assets > convToAssetsDown (stratTotalAssets st) st.supply st.supply then
    .error "ERC4626ExceededMaxWithdraw"
  else
    let sh := convToSharesUp (stratTotalAssets st) st.supply assets
    if st.supply < sh then .error "ERC20InsufficientBalance"
    else if st.idle < assets then .error "ERC20InsufficientBalance"
    else .ok (sh, { st with idle := st.idle - assets, supply := st.supply - sh })

/-- `StrategyBase.redeem` (`onlyVault nonReentrant`, NOT pausable). -/
def stratRedeem (sender : Addr) (sh : Nat) (st : StratState) :
    Except String (Nat × StratState) :=
  if st.broken then .error "call reverted"
  else if sender ≠ st.vault then .error "BaseStrategy: caller not vault"
  else if sh > st.supply then .error "ERC4626ExceededMaxRedeem"
  else
    let assets := convToAssetsDown (stratTotalAssets st) st.supply sh
    if st.idle < assets then .error "ERC20InsufficientBalance"
    else .ok (assets, { st with idle := st.idle - assets, supply := st.supply - sh })

-- ============ Basic lemmas ============

theorem upd_same {β : Type} (f : Addr → β) (a : Addr) (b : β) : upd f a b a = b := by
  simp [upd]

theorem upd_other {β : Type} (f : Addr → β) {a x : Addr} (b : β) (h : x ≠ a) :
    upd f a b x = f x := by
  simp [upd, h]

theorem strategyAssetsLoop_acc (s : VaultState) (l : List Addr) (acc : Nat) :
    strategyAssetsLoop s l acc = acc + (l.map (stratContrib s)).sum := by
  induction l generalizing acc with
  | nil => simp [strategyAssetsLoop]
  | cons a rest ih => simp [strategyAssetsLoop, ih]; omega

theorem totalAssets_sum (s : VaultState) :
    totalAssets s = s.buffer + (s.strategies.map (stratContrib s)).sum := by
  simp [totalAssets, strategyAssetsLoop_acc]

/-- Sums over a duplicate-free list when the summand changes at exactly one
listed address (stated additively to avoid truncated subtraction). -/
theorem sum_map_update_mem {f g : Addr → Nat} {l : List Addr} {a : Addr}
    (hnd : l.Nodup) (hmem : a ∈ l) (hcong : ∀ b, b ≠ a → g b = f b) :
    (l.map g).sum + f a = (l.map f).sum + g a := by
  induction l with
  | nil => cases hmem
  | cons b rest ih =>
    rcases List.nodup_cons.mp hnd with ⟨hb, hrest⟩
    rcases List.mem_cons.mp hmem with h | h
    · subst h
      have : rest.map g = rest.map f := by
        apply List.map_congr_left
        intro x hx
        exact hcong x (fun hxa => hb (hxa ▸ hx))
      simp [this]; omega
    · have hba : b ≠ a := fun hba => hb (hba ▸ h)
      have := ih hrest h
      simp [hcong b hba]; omega

theorem sum_map_congr {f g : Addr → Nat} {l : List Addr}
    (hcong : ∀ b ∈ l, g b = f b) : (l.map g).sum = (l.map f).sum := by
  have : l.map g = l.map f := List.map_congr_left hcong
  simp [this]

-- ============ C8: totalAssets composition ============

/-- C8: `totalAssets()` equals the vault's own token balance plus, for each
active strategy, its live-queried total, falling back to the recorded
`totalDeposited` exactly when the live query reverts; being a view
computation it is total (returns a value in both cases, never an error). -/
theorem totalAssets_eq_buffer_add_strategy_sum (s : VaultState) :
    totalAssets s = s.buffer +
      ((s.strategies.filter (fun a => (s.info a).isActive)).map
        (fun a => if (s.strat a).broken then (s.info a).totalDeposited
                  else stratTotalAssets (s.strat a))).sum := by
  rw [totalAssets_sum]
  congr 1
  induction s.strategies with
  | nil => simp
  | cons a rest ih =>
    by_cases h : (s.info a).isActive <;>
      simp [stratContrib, h, List.filter_cons, ih]

-- ============ C2: harvestAll ============

theorem harvestStrategy_self_call_fails (s : VaultState) (a : Addr) :
    harvestStrategy s.vaultAddr true a s = .error
      (if s.vaultAddr ≠ s.owner then "OwnableUnauthorizedAccount"
       else "ReentrancyGuardReentrantCall") := by
  by_cases h : s.vaultAddr = s.owner <;> simp [harvestStrategy, h]

theorem harvestAllLoop_fixed (s : VaultState) (l : List Addr) (acc : Int) :
    harvestAllLoop l acc s = (acc, s) := by
  induction l with
  | nil => rfl
  | cons a rest ih =>
    by_cases h : (s.info a).isActive <;>
      simp [harvestAllLoop, h, harvestStrategy_self_call_fails, ih]

/-- C2: `harvestAll`, called by the owner, never performs the
yield-realization step on any strategy: the inner
`try this.harvestStrategy(strategy)` is an external self-call with
`msg.sender = address(this)` made while the reentrancy guard is held, so it
always reverts (on `onlyOwner` or on `nonReentrant`), every strategy is
"skipped" and the call returns a total PnL of 0 with the state unchanged —
contradicting the documented behaviour of harvesting every active strategy
and summing its PnL. -/
theorem harvestAll_returns_zero_and_changes_nothing (s : VaultState) :
    harvestAll s.owner s = .ok (0, s) := by
  simp [harvestAll, harvestAllLoop_fixed]

-- ============ C1: strategy deposit failure during rebalance ============

/-- A vault (owner 1, address 10) holding 1000 buffer units against 1000
shares, with one registered strategy (address 5, 50% weight, `minLiquidity`
1) that is paused — the emergency state of the spec's Scenario E. -/
def pausedStratVault : VaultState := {
  vaultAddr := 10, owner := 1, paused := false, buffer := 1000, supply := 1000,
  shares := fun x => if x = 2 then 1000 else 0,
  extBal := fun x => if x = 2 then 1000 else 0,
  strategies := [5],
  info := fun x => if x = 5 then ⟨5000, 0, true⟩ else ⟨0, 0, false⟩,
  totalAllocation := 5000, minLiquidity := 1,
  allowance := fun _ => 0,
  strat := fun _ => { owner := 1, vault := 10, paused := true, idle := 0,
                      supply := 0, broken := false } }

/-- Like `pausedStratVault` but still empty, awaiting the deposit that
triggers the implicit rebalancing pass. -/
def pausedStratVaultEmpty : VaultState :=
  { pausedStratVault with buffer := 0, supply := 0, shares := fun _ => 0 }

/-- C1: when an active strategy's deposit call fails during a rebalance the
strategy is NOT skipped: the `catch` branch of `_depositToStrategy` reverts
the entire transaction with `"strategy deposit failed"`, so both an explicit
owner `rebalance()` and the implicit pass after a user deposit fail wholesale
instead of completing for the remaining state — contradicting the spec and
the repository's own test "Should handle strategy deposit failures
gracefully". -/
theorem rebalance_reverts_when_strategy_deposit_fails :
    rebalance 1 pausedStratVault = .error "strategy deposit failed" ∧
    deposit 2 2 1000 pausedStratVaultEmpty = .error "strategy deposit failed" :=
  ⟨rfl, rfl⟩

-- ============ C10: strategy pulls preserve total assets and price ============

/-- Redeeming at most the whole supply never pays out more than the assets
held: `shares·(A+1)/(S+1) ≤ A` when `shares ≤ S`. -/
theorem convToAssetsDown_le (A S sh : Nat) (h : sh ≤ S) :
    convToAssetsDown A S sh ≤ A := by
  have h1 : sh * (A + 1) ≤ S * (A + 1) := Nat.mul_le_mul_right _ h
  have h2 : S * (A + 1) < (S + 1) * (A + 1) :=
    mul_lt_mul_of_pos_right (by omega) (by omega)
  have h3 : (S + 1) * (A + 1) = (A + 1) * (S + 1) := Nat.mul_comm _ _
  have h4 : sh * (A + 1) < (A + 1) * (S + 1) := by omega
  have := (Nat.div_lt_iff_lt_mul (by omega : 0 < S + 1)).mpr h4
  unfold convToAssetsDown mulDivDown
  omega

/-- The assets a pull of `w` actually receives from a working strategy. -/
def pullAssets (st : StratState) (w : Nat) : Nat :=
  convToAssetsDown (stratTotalAssets st) st.supply
    (min (convToSharesUp (stratTotalAssets st) st.supply w) st.supply)

/-- The post-state of a successful pull of `w` from working strategy `a`. -/
def pullState (s : VaultState) (a : Addr) (w : Nat) : VaultState :=
  let st := s.strat a
  let assets := pullAssets st w
  { s with
    buffer := s.buffer + assets,
    strat := upd s.strat a
      { st with idle := st.idle - assets,
                supply := st.supply -
                  min (convToSharesUp (stratTotalAssets st) st.supply w) st.supply },
    info := upd s.info a
      { s.info a with totalDeposited := (s.info a).totalDeposited - assets } }

theorem pullAssets_le_idle (st : StratState) (w : Nat) :
    pullAssets st w ≤ st.idle := by
  have := convToAssetsDown_le (stratTotalAssets st) st.supply
    (min (convToSharesUp (stratTotalAssets st) st.supply w) st.supply)
    (Nat.min_le_right _ _)
  simpa [pullAssets, stratTotalAssets, totalDeployed] using this

/-- Executing `_withdrawFromStrategy` on an active, working strategy with a
positive amount: the ERC20 balance guard never fires and the call returns
`pullAssets`/`pullState`. -/
theorem withdrawFromStrategy_ok (s : VaultState) (a : Addr) (w : Nat)
    (hactive : (s.info a).isActive) (hok : (s.strat a).broken = false)
    (hw : w ≠ 0) :
    withdrawFromStrategy s a w = .ok (pullAssets (s.strat a) w, pullState s a w) := by
  unfold withdrawFromStrategy
  have hle := pullAssets_le_idle (s.strat a) w
  simp [hactive, hw, hok, pullState, pullAssets] at hle ⊢
  omega

/-- Additive accounting identity for any state change that touches only one
listed strategy's registry entry and contract state (plus the buffer). -/
theorem totalAssets_one_strategy_change {s s' : VaultState} {a : Addr}
    (hl : s'.strategies = s.strategies) (hnd : s.strategies.Nodup)
    (hmem : a ∈ s.strategies)
    (hinfo : ∀ b, b ≠ a → s'.info b = s.info b)
    (hstrat : ∀ b, b ≠ a → s'.strat b = s.strat b) :
    totalAssets s' + stratContrib s a + s.buffer
      = totalAssets s + stratContrib s' a + s'.buffer := by
  have hcong : ∀ b, b ≠ a → stratContrib s' b = stratContrib s b := by
    intro b hb; simp [stratContrib, hinfo b hb, hstrat b hb]
  have hsum := sum_map_update_mem (f := stratContrib s) (g := stratContrib s')
    hnd hmem hcong
  rw [totalAssets_sum, totalAssets_sum, hl]
  omega

theorem pullState_contrib (s : VaultState) (a : Addr) (w : Nat)
    (hactive : (s.info a).isActive) (hok : (s.strat a).broken = false) :
    stratContrib (pullState s a w) a + pullAssets (s.strat a) w
      = stratContrib s a := by
  have hle := pullAssets_le_idle (s.strat a) w
  simp [stratContrib, pullState, upd_same, hactive, hok,
    stratTotalAssets, totalDeployed]
  omega

theorem pullState_totalAssets (s : VaultState) (a : Addr) (w : Nat)
    (hnd : s.strategies.Nodup) (hmem : a ∈ s.strategies)
    (hactive : (s.info a).isActive) (hok : (s.strat a).broken = false) :
    totalAssets (pullState s a w) = totalAssets s := by
  have hfr := @totalAssets_one_strategy_change s (pullState s a w) a rfl hnd hmem
    (fun b hb => upd_other _ _ hb) (fun b hb => upd_other _ _ hb)
  have hc := pullState_contrib s a w hactive hok
  have hbuf : (pullState s a w).buffer = s.buffer + pullAssets (s.strat a) w := rfl
  omega

/-- C10: a successful liquidity pull from a working strategy moves value but
never creates or destroys it — `totalAssets()` and the share supply are
unchanged, the buffer grows by exactly the amount the strategy's
live-queried total shrinks, the recorded `totalDeposited` is decremented by
the amount actually received (`Nat` subtraction models the clamp at zero),
and hence the share price `convertToAssets(1 share)` (= `previewRedeem 1`)
is unaffected by moving funds from a strategy to the buffer. -/
theorem withdrawFromStrategy_preserves_price (s : VaultState) (a : Addr) (w : Nat)
    (hnd : s.strategies.Nodup) (hmem : a ∈ s.strategies)
    (hactive : (s.info a).isActive) (hok : (s.strat a).broken = false)
    (hw : w ≠ 0) :
    ∃ actual s',
      withdrawFromStrategy s a w = .ok (actual, s') ∧
      totalAssets s' = totalAssets s ∧
      s'.supply = s.supply ∧
      s'.buffer = s.buffer + actual ∧
      stratTotalAssets (s'.strat a) + actual = stratTotalAssets (s.strat a) ∧
      (s'.info a).totalDeposited = (s.info a).totalDeposited - actual ∧
      previewRedeem s' 1 = previewRedeem s 1 := by
  refine ⟨pullAssets (s.strat a) w, pullState s a w,
    withdrawFromStrategy_ok s a w hactive hok hw,
    pullState_totalAssets s a w hnd hmem hactive hok, rfl, rfl, ?_, ?_, ?_⟩
  · have hle := pullAssets_le_idle (s.strat a) w
    simp [pullState, upd_same, stratTotalAssets, totalDeployed]
    omega
  · simp [pullState, upd_same]
  · simp [previewRedeem, pullState_totalAssets s a w hnd hmem hactive hok]
    rfl

-- ============ C5: rebalance arithmetic ============

/-- The post-state of a successful `_depositToStrategy` call. -/
def depState (s : VaultState) (a : Addr) (amt : Nat) : VaultState :=
  let st := s.strat a
  { s with
    buffer := s.buffer - amt,
    strat := upd s.strat a
      { st with idle := st.idle + amt,
                supply := st.supply + convToSharesDown (stratTotalAssets st) st.supply amt },
    info := upd s.info a
      { s.info a with totalDeposited := (s.info a).totalDeposited + amt },
    allowance := upd s.allowance a (if amt = MAXUINT then MAXUINT else 0) }

theorem depositToStrategy_ok (s : VaultState) (a : Addr) (amt : Nat)
    (hactive : (s.info a).isActive) (hamt : amt ≠ 0) (hbuf : amt ≤ s.buffer)
    (hbr : (s.strat a).broken = false) (hp : (s.strat a).paused = false) :
    depositToStrategy s a amt = .ok (depState s a amt) := by
  unfold depositToStrategy depState
  simp [hactive, hamt, Nat.not_lt.mpr hbuf, hbr, hp]

/-- The vault of the spec's Scenario A: empty, owner 1, one strategy
(address 5) registered at 50% weight, `minLiquidity` of one unit, and a
depositor (address 2) holding 1000 asset units. -/
def scenarioA : VaultState := {
  vaultAddr := 10, owner := 1, paused := false, buffer := 0, supply := 0,
  shares := fun _ => 0,
  extBal := fun x => if x = 2 then 1000 else 0,
  strategies := [5],
  info := fun x => if x = 5 then ⟨5000, 0, true⟩ else ⟨0, 0, false⟩,
  totalAllocation := 5000, minLiquidity := 1,
  allowance := fun _ => 0,
  strat := fun _ => { owner := 1, vault := 10, paused := false, idle := 0,
                      supply := 0, broken := false } }

/-- The spec's per-strategy deployment formula: an active strategy whose
floor-divided target `⌊d·weight/10000⌋` exceeds its recorded deposit
receives the shortfall capped by the buffer available at its turn; every
other strategy receives nothing. -/
def deployAmt (d : Nat) (i : Addr → StrategyInfo) (a : Addr) (buf : Nat) : Nat :=
  if (i a).isActive ∧ d * (i a).targetAllocation / 10000 > (i a).totalDeposited
  then min (d * (i a).targetAllocation / 10000 - (i a).totalDeposited) buf
  else 0

/-- The buffer available when the deployment pass reaches strategy `a`:
the starting buffer less the amounts granted to the strategies before `a`
in registry order. -/
def bufBefore (d : Nat) (i : Addr → StrategyInfo) : List Addr → Nat → Addr → Nat
  | [], buf, _ => buf
  | b :: rest, buf, a =>
    if b = a then buf else bufBefore d i rest (buf - deployAmt d i b buf) a

/-- The buffer left once the deployment pass has visited the whole registry. -/
def bufAfter (d : Nat) (i : Addr → StrategyInfo) : List Addr → Nat → Nat
  | [], buf => buf
  | b :: rest, buf => bufAfter d i rest (buf - deployAmt d i b buf)

theorem deployAmt_congr (d : Nat) (i j : Addr → StrategyInfo) (a : Addr) (buf : Nat)
    (h : i a = j a) : deployAmt d i a buf = deployAmt d j a buf := by
  unfold deployAmt
  rw [h]

theorem bufBefore_cons_self (d : Nat) (i : Addr → StrategyInfo) (a : Addr)
    (l : List Addr) (buf : Nat) : bufBefore d i (a :: l) buf a = buf := by
  simp [bufBefore]

theorem bufBefore_cons_ne (d : Nat) (i : Addr → StrategyInfo) (b : Addr)
    (l : List Addr) (buf : Nat) (a : Addr) (h : b ≠ a) :
    bufBefore d i (b :: l) buf a = bufBefore d i l (buf - deployAmt d i b buf) a := by
  simp only [bufBefore]
  rw [if_neg h]

theorem bufAfter_cons (d : Nat) (i : Addr → StrategyInfo) (b : Addr)
    (l : List Addr) (buf : Nat) :
    bufAfter d i (b :: l) buf = bufAfter d i l (buf - deployAmt d i b buf) := by
  simp only [bufAfter]

theorem bufBefore_congr (d : Nat) (i j : Addr → StrategyInfo) :
    ∀ (l : List Addr) (buf : Nat) (a : Addr), (∀ b ∈ l, i b = j b) →
      bufBefore d i l buf a = bufBefore d j l buf a := by
  intro l
  induction l with
  | nil => intro buf a _; rfl
  | cons b rest ih =>
    intro buf a h
    unfold bufBefore
    by_cases hba : b = a
    · rw [if_pos hba, if_pos hba]
    · rw [if_neg hba, if_neg hba,
        deployAmt_congr d i j b buf (h b (List.mem_cons_self b rest)),
        ih _ _ (fun c hc => h c (List.mem_cons_of_mem b hc))]

theorem bufAfter_congr (d : Nat) (i j : Addr → StrategyInfo) :
    ∀ (l : List Addr) (buf : Nat), (∀ b ∈ l, i b = j b) →
      bufAfter d i l buf = bufAfter d j l buf := by
  intro l
  induction l with
  | nil => intro buf _; rfl
  | cons b rest ih =>
    intro buf h
    unfold bufAfter
    rw [deployAmt_congr d i j b buf (h b (List.mem_cons_self b rest)),
      ih _ (fun c hc => h c (List.mem_cons_of_mem b hc))]

theorem autoDeployLoop_amounts (d : Nat) :
    ∀ (l : List Addr) (s : VaultState), l.Nodup →
      (∀ a ∈ l, (s.info a).isActive →
        (s.strat a).broken = false ∧ (s.strat a).paused = false ∧
        (s.info a).totalDeposited ≤ d * (s.info a).targetAllocation / 10000) →
      ∃ s', autoDeployLoop d l s = .ok s' ∧
        s'.buffer = bufAfter d s.info l s.buffer ∧
        (∀ a ∈ l, (s'.info a).totalDeposited =
          (s.info a).totalDeposited +
            deployAmt d s.info a (bufBefore d s.info l s.buffer a)) ∧
        (∀ a, a ∉ l → s'.info a = s.info a) := by
  intro l
  induction l with
  | nil =>
    intro s _ _
    refine ⟨s, rfl, rfl, ?_, fun a _ => rfl⟩
    intro a ha
    cases ha
  | cons b rest ih =>
    intro s hnd hh
    have hbr : b ∉ rest := (List.nodup_cons.mp hnd).1
    have hndr : rest.Nodup := (List.nodup_cons.mp hnd).2
    by_cases hact : (s.info b).isActive
    · obtain ⟨hbk, hps, hle⟩ := hh b (List.mem_cons_self b rest) hact
      by_cases hgap : d * (s.info b).targetAllocation / 10000 > (s.info b).totalDeposited
      · by_cases hpos : min (d * (s.info b).targetAllocation / 10000
            - (s.info b).totalDeposited) s.buffer > 0
        · -- a positive amount is deposited into b
          have hdep := depositToStrategy_ok s b
            (min (d * (s.info b).targetAllocation / 10000
              - (s.info b).totalDeposited) s.buffer)
            hact (by omega) (Nat.min_le_right _ _) hbk hps
          have hne : ∀ c ∈ rest, c ≠ b := fun c hc hcb => hbr (hcb ▸ hc)
          have hinfo1 : ∀ c ∈ rest,
              (depState s b (min (d * (s.info b).targetAllocation / 10000
                - (s.info b).totalDeposited) s.buffer)).info c = s.info c :=
            fun c hc => by simp [depState, upd_other _ _ (hne c hc)]
          have hstrat1 : ∀ c ∈ rest,
              (depState s b (min (d * (s.info b).targetAllocation / 10000
                - (s.info b).totalDeposited) s.buffer)).strat c = s.strat c :=
            fun c hc => by simp [depState, upd_other _ _ (hne c hc)]
          have hh1 : ∀ a ∈ rest,
              ((depState s b (min (d * (s.info b).targetAllocation / 10000
                - (s.info b).totalDeposited) s.buffer)).info a).isActive →
              ((depState s b (min (d * (s.info b).targetAllocation / 10000
                - (s.info b).totalDeposited) s.buffer)).strat a).broken = false ∧
              ((depState s b (min (d * (s.info b).targetAllocation / 10000
                - (s.info b).totalDeposited) s.buffer)).strat a).paused = false ∧
              ((depState s b (min (d * (s.info b).targetAllocation / 10000
                - (s.info b).totalDeposited) s.buffer)).info a).totalDeposited
                ≤ d * ((depState s b (min (d * (s.info b).targetAllocation / 10000
                  - (s.info b).totalDeposited) s.buffer)).info a).targetAllocation / 10000 := by
            intro a ha
            rw [hinfo1 a ha, hstrat1 a ha]
            exact hh a (List.mem_cons_of_mem b ha)
          obtain ⟨s', hrun, hbuf, hdeps, hfr⟩ :=
            ih (depState s b (min (d * (s.info b).targetAllocation / 10000
              - (s.info b).totalDeposited) s.buffer)) hndr hh1
          have hb1 : (depState s b (min (d * (s.info b).targetAllocation / 10000
              - (s.info b).totalDeposited) s.buffer)).buffer
              = s.buffer - min (d * (s.info b).targetAllocation / 10000
                - (s.info b).totalDeposited) s.buffer := by
            simp [depState]
          have hda : deployAmt d s.info b s.buffer
              = min (d * (s.info b).targetAllocation / 10000
                - (s.info b).totalDeposited) s.buffer := by
            unfold deployAmt
            rw [if_pos ⟨hact, hgap⟩]
          refine ⟨s', ?_, ?_, ?_, ?_⟩
          · unfold autoDeployLoop
            rw [if_neg (not_not_intro hact), if_pos hgap, if_pos hpos, hdep]
            exact hrun
          · rw [hbuf, bufAfter_congr d _ s.info rest _ hinfo1, hb1, bufAfter_cons, hda]
          · intro a ha
            rcases List.mem_cons.mp ha with h1 | h1
            · subst h1
              rw [hfr a hbr]
              have hself : ((depState s a (min (d * (s.info a).targetAllocation / 10000
                  - (s.info a).totalDeposited) s.buffer)).info a).totalDeposited
                  = (s.info a).totalDeposited
                    + min (d * (s.info a).targetAllocation / 10000
                      - (s.info a).totalDeposited) s.buffer := by
                simp [depState, upd_same]
              rw [hself, bufBefore_cons_self, hda]
            · have hban : b ≠ a := fun h => hbr (h ▸ h1)
              rw [hdeps a h1, hinfo1 a h1,
                deployAmt_congr d _ s.info a _ (hinfo1 a h1),
                bufBefore_congr d _ s.info rest _ a hinfo1, hb1,
                bufBefore_cons_ne d s.info b rest s.buffer a hban, hda]
          · intro a ha
            have har : a ∉ rest := fun h => ha (List.mem_cons_of_mem b h)
            have hab : a ≠ b := fun h => ha (h ▸ List.mem_cons_self b rest)
            rw [hfr a har]
            simp [depState, upd_other _ _ hab]
        · -- the buffer is exhausted: the clamp is zero and b is skipped
          have hda : deployAmt d s.info b s.buffer = 0 := by
            unfold deployAmt
            rw [if_pos ⟨hact, hgap⟩]
            omega
          obtain ⟨s', hrun, hbuf, hdeps, hfr⟩ :=
            ih s hndr (fun a ha => hh a (List.mem_cons_of_mem b ha))
          refine ⟨s', ?_, ?_, ?_, ?_⟩
          · unfold autoDeployLoop
            rw [if_neg (not_not_intro hact), if_pos hgap, if_neg hpos]
            exact hrun
          · rw [hbuf, bufAfter_cons, hda, Nat.sub_zero]
          · intro a ha
            rcases List.mem_cons.mp ha with h1 | h1
            · subst h1
              rw [hfr a hbr, bufBefore_cons_self, hda, Nat.add_zero]
            · have hban : b ≠ a := fun h => hbr (h ▸ h1)
              rw [hdeps a h1, bufBefore_cons_ne d s.info b rest s.buffer a hban,
                hda, Nat.sub_zero]
          · intro a ha
            exact hfr a (fun h => ha (List.mem_cons_of_mem b h))
      · -- the target does not exceed the recorded deposit: b is left alone
        have hda : deployAmt d s.info b s.buffer = 0 := by
          unfold deployAmt
          rw [if_neg (fun h => hgap h.2)]
        obtain ⟨s', hrun, hbuf, hdeps, hfr⟩ :=
          ih s hndr (fun a ha => hh a (List.mem_cons_of_mem b ha))
        refine ⟨s', ?_, ?_, ?_, ?_⟩
        · unfold autoDeployLoop
          rw [if_neg (not_not_intro hact), if_neg hgap, if_neg (by omega)]
          exact hrun
        · rw [hbuf, bufAfter_cons, hda, Nat.sub_zero]
        · intro a ha
          rcases List.mem_cons.mp ha with h1 | h1
          · subst h1
            rw [hfr a hbr, bufBefore_cons_self, hda, Nat.add_zero]
          · have hban : b ≠ a := fun h => hbr (h ▸ h1)
            rw [hdeps a h1, bufBefore_cons_ne d s.info b rest s.buffer a hban,
              hda, Nat.sub_zero]
        · intro a ha
          exact hfr a (fun h => ha (List.mem_cons_of_mem b h))
    · -- inactive strategies are skipped
      have hda : deployAmt d s.info b s.buffer = 0 := by
        unfold deployAmt
        rw [if_neg (fun h => hact h.1)]
      obtain ⟨s', hrun, hbuf, hdeps, hfr⟩ :=
        ih s hndr (fun a ha => hh a (List.mem_cons_of_mem b ha))
      refine ⟨s', ?_, ?_, ?_, ?_⟩
      · unfold autoDeployLoop
        rw [if_pos hact]
        exact hrun
      · rw [hbuf, bufAfter_cons, hda, Nat.sub_zero]
      · intro a ha
        rcases List.mem_cons.mp ha with h1 | h1
        · subst h1
          rw [hfr a hbr, bufBefore_cons_self, hda, Nat.add_zero]
        · have hban : b ≠ a := fun h => hbr (h ▸ h1)
          rw [hdeps a h1, bufBefore_cons_ne d s.info b rest s.buffer a hban,
            hda, Nat.sub_zero]
      · intro a ha
        exact hfr a (fun h => ha (List.mem_cons_of_mem b h))

/-- C5: rebalancing deploys nothing when total managed assets do not exceed
`minLiquidity`; otherwise, processing the registry in order with
`d = total − minLiquidity`, every active working strategy receives exactly
`min(⌊d·weight/10000⌋ − recorded, available buffer)` when its floor-divided
target exceeds its recorded deposit and nothing otherwise — where the
available buffer at a strategy's turn is the starting buffer less the
amounts granted to the strategies before it — and the final buffer is the
starting buffer less everything granted; and in the spec's Scenario A a
fresh 1000-unit deposit (which triggers the implicit pass) mints 1000
shares, deploys 499 units to the strategy and leaves 501 in the buffer. -/
theorem autoDeploy_amounts_and_scenarioA :
    (∀ s : VaultState, totalAssets s ≤ s.minLiquidity → autoDeployFunds s = .ok s) ∧
    (∀ s : VaultState, s.strategies.Nodup →
      (∀ a ∈ s.strategies, (s.info a).isActive →
        (s.strat a).broken = false ∧ (s.strat a).paused = false ∧
        (s.info a).totalDeposited
          ≤ (totalAssets s - s.minLiquidity) * (s.info a).targetAllocation / 10000) →
      s.minLiquidity < totalAssets s →
      ∃ s', autoDeployFunds s = .ok s' ∧
        s'.buffer = bufAfter (totalAssets s - s.minLiquidity) s.info
          s.strategies s.buffer ∧
        ∀ a ∈ s.strategies, (s'.info a).totalDeposited =
          (s.info a).totalDeposited +
            deployAmt (totalAssets s - s.minLiquidity) s.info a
              (bufBefore (totalAssets s - s.minLiquidity) s.info
                s.strategies s.buffer a)) ∧
    (deposit 2 2 1000 scenarioA).toOption.map
      (fun p => (p.1, p.2.buffer, (p.2.info 5).totalDeposited,
                 stratTotalAssets (p.2.strat 5), totalAssets p.2))
      = some (1000, 501, 499, 499, 1000) := by
  refine ⟨?_, ?_, by rfl⟩
  · intro s h
    unfold autoDeployFunds
    simp [h]
  · intro s hnd hh htot
    unfold autoDeployFunds
    rw [if_neg (by omega)]
    exact (autoDeployLoop_amounts (totalAssets s - s.minLiquidity) s.strategies s hnd hh).imp
      (fun s' h => ⟨h.1, h.2.1, h.2.2.1⟩)

-- ============ C4: allocation invariant ============

/-- Structural well-formedness of the registry, established by construction:
the `_strategies` array is duplicate-free (`addStrategy` rejects active
entries) and lists exactly the strategies flagged active. -/
def WF (s : VaultState) : Prop :=
  s.strategies.Nodup ∧ ∀ a, (s.info a).isActive ↔ a ∈ s.strategies

/-- Sum of `targetAllocation` over the active strategies. -/
def activeAllocSum (s : VaultState) : Nat :=
  ((s.strategies.filter (fun a => (s.info a).isActive)).map
    (fun a => (s.info a).targetAllocation)).sum

/-- The allocation bookkeeping invariant of the spec. -/
def AllocInv (s : VaultState) : Prop :=
  activeAllocSum s = s.totalAllocation ∧ s.totalAllocation ≤ 10000

theorem activeAllocSum_of_wf (s : VaultState) (h : ∀ a, (s.info a).isActive ↔ a ∈ s.strategies) :
    activeAllocSum s = (s.strategies.map (fun a => (s.info a).targetAllocation)).sum := by
  unfold activeAllocSum
  rw [List.filter_eq_self.mpr]
  intro a ha
  simpa using (h a).mpr ha

theorem firstIdx_some_of_mem {x : Addr} :
    ∀ {l : List Addr}, x ∈ l → ∃ i, firstIdx l x = some i := by
  intro l
  induction l with
  | nil => intro h; cases h
  | cons b rest ih =>
    intro h
    by_cases hbx : b = x
    · exact ⟨0, by simp [firstIdx, hbx]⟩
    · have hx : x ∈ rest := by
        rcases List.mem_cons.mp h with h1 | h1
        · exact absurd h1.symm hbx
        · exact h1
      rcases ih hx with ⟨j, hj⟩
      exact ⟨j + 1, by simp [firstIdx, hbx, hj]⟩

theorem swapPop_cons_ne {b x : Addr} {rest : List Addr} (h : b ≠ x) :
    swapPop (b :: rest) x =
      match swapPop rest x with
      | none => none
      | some r => some (b :: r) := by
  unfold swapPop
  cases hfi : firstIdx rest x with
  | none => simp [firstIdx, h, hfi]
  | some j =>
    have hrest : rest ≠ [] := by
      intro hc
      subst hc
      simp [firstIdx] at hfi
    have hlast : (b :: rest).getLast? = rest.getLast? := by
      cases rest with
      | nil => exact absurd rfl hrest
      | cons c t => exact List.getLast?_cons_cons
    have hset : (b :: rest).set (j + 1) ((rest.getLast?).getD 0)
        = b :: rest.set j ((rest.getLast?).getD 0) := by simp
    simp only [firstIdx, if_neg h, hfi, Option.map_some', hlast, hset]
    cases hs : rest.set j ((rest.getLast?).getD 0) with
    | nil =>
      have hlen := congrArg List.length hs
      simp at hlen
      exact absurd hlen hrest
    | cons u v => simp

theorem swapPop_perm {x : Addr} :
    ∀ {l r : List Addr}, swapPop l x = some r → List.Perm r (l.erase x)
  | [], r, h => by simp [swapPop, firstIdx] at h
  | b :: rest, r, h => by
    by_cases hbx : b = x
    · subst hbx
      unfold swapPop at h
      rw [show firstIdx (b :: rest) b = some 0 by simp [firstIdx]] at h
      cases rest with
      | nil =>
        simp at h
        subst h
        simp
      | cons c t =>
        rw [List.getLast?_cons_cons] at h
        have h2 : some ((((c :: t).getLast?).getD 0) :: (c :: t).dropLast) = some r := h
        have h' := Option.some.inj h2
        subst h'
        rw [List.erase_cons_head]
        have hne : (c :: t) ≠ [] := by simp
        have hgl : ((c :: t).getLast?).getD 0 = (c :: t).getLast hne := by
          rw [List.getLast?_eq_getLast (c :: t) hne]
          rfl
        rw [hgl]
        have hsplit : (c :: t).dropLast ++ [(c :: t).getLast hne] = c :: t :=
          List.dropLast_append_getLast hne
        have hp : List.Perm ((c :: t).dropLast ++ [(c :: t).getLast hne])
            ((c :: t).getLast hne :: (c :: t).dropLast) :=
          List.perm_append_singleton _ _
        rw [hsplit] at hp
        exact hp.symm
    · rw [swapPop_cons_ne hbx] at h
      cases hsp : swapPop rest x with
      | none => rw [hsp] at h; simp at h
      | some r' =>
        rw [hsp] at h
        simp at h
        subst h
        have hperm := swapPop_perm hsp
        have herase : (b :: rest).erase x = b :: rest.erase x := by
          simp [List.erase_cons_tail, hbx]
        rw [herase]
        exact hperm.cons b

/-- Sum of `targetAllocation` over the active entries of a list, under a
given `strategyInfo` mapping. -/
def allocSumOf (i : Addr → StrategyInfo) (l : List Addr) : Nat :=
  ((l.filter (fun a => (i a).isActive)).map (fun a => (i a).targetAllocation)).sum

theorem activeAllocSum_def (s : VaultState) :
    activeAllocSum s = allocSumOf s.info s.strategies := rfl

theorem allocSumOf_cons (i : Addr → StrategyInfo) (c : Addr) (rest : List Addr) :
    allocSumOf i (c :: rest)
      = (if (i c).isActive then (i c).targetAllocation else 0) + allocSumOf i rest := by
  by_cases h : (i c).isActive <;> simp [allocSumOf, List.filter_cons, h]

theorem allocSumOf_congr {i i' : Addr → StrategyInfo} :
    ∀ {l : List Addr},
      (∀ x ∈ l, (i' x).isActive = (i x).isActive ∧
                (i' x).targetAllocation = (i x).targetAllocation) →
      allocSumOf i' l = allocSumOf i l := by
  intro l
  induction l with
  | nil => intro _; rfl
  | cons c rest ih =>
    intro h
    rw [allocSumOf_cons, allocSumOf_cons, (h c (by simp)).1, (h c (by simp)).2,
      ih (fun x hx => h x (by simp [hx]))]

theorem allocSumOf_append (i : Addr → StrategyInfo) (l₁ l₂ : List Addr) :
    allocSumOf i (l₁ ++ l₂) = allocSumOf i l₁ + allocSumOf i l₂ := by
  simp [allocSumOf, List.filter_append]

theorem allocSumOf_perm (i : Addr → StrategyInfo) {l l' : List Addr}
    (h : List.Perm l l') : allocSumOf i l = allocSumOf i l' :=
  ((h.filter _).map _).sum_eq

theorem allocSumOf_erase {i : Addr → StrategyInfo} {l : List Addr} {b : Addr}
    (hmem : b ∈ l) (hact : (i b).isActive) :
    allocSumOf i l = (i b).targetAllocation + allocSumOf i (l.erase b) := by
  rw [allocSumOf_perm i (List.perm_cons_erase hmem), allocSumOf_cons, if_pos hact]

theorem allocSumOf_all_active {i : Addr → StrategyInfo} {l : List Addr}
    (h : ∀ x ∈ l, (i x).isActive) :
    allocSumOf i l = (l.map (fun a => (i a).targetAllocation)).sum := by
  unfold allocSumOf
  rw [List.filter_eq_self.mpr (fun x hx => by simpa using h x hx)]

theorem addStrategy_preserves {s s' : VaultState} {sender b : Addr} {w : Nat}
    (hwf : WF s) (hinv : AllocInv s) (h : addStrategy sender b w s = .ok s') :
    WF s' ∧ AllocInv s' := by
  unfold addStrategy at h
  split_ifs at h with h1 h2 h3 h4 h5
  injection h with h6
  subst h6
  have hmem : b ∉ s.strategies := fun hm => h3 ((hwf.2 b).mpr hm)
  refine ⟨⟨?_, ?_⟩, ?_, ?_⟩
  · rw [List.nodup_append]
    refine ⟨hwf.1, by simp, ?_⟩
    intro x hx hxb
    simp at hxb
    subst hxb
    exact hmem hx
  · intro a
    by_cases hab : a = b
    · subst hab
      simp [upd_same]
    · simp [upd_other _ _ hab, List.mem_append, hab, (hwf.2 a)]
  · show allocSumOf _ (s.strategies ++ [b]) = _
    rw [allocSumOf_append]
    have hl : allocSumOf (upd s.info b ⟨w, 0, true⟩) s.strategies
        = allocSumOf s.info s.strategies := by
      apply allocSumOf_congr
      intro x hx
      have hxb : x ≠ b := fun hc => hmem (hc ▸ hx)
      rw [upd_other _ _ hxb]
      exact ⟨rfl, rfl⟩
    have hb : allocSumOf (upd s.info b ⟨w, 0, true⟩) [b] = w := by
      rw [allocSumOf_cons]
      simp [upd_same, allocSumOf]
    rw [hl, hb, ← activeAllocSum_def, hinv.1]
  · show s.totalAllocation + w ≤ 10000
    omega

theorem updateStrategyAllocation_preserves {s s' : VaultState} {sender b : Addr}
    {w : Nat} (hwf : WF s) (hinv : AllocInv s)
    (h : updateStrategyAllocation sender b w s = .ok s') :
    WF s' ∧ AllocInv s' := by
  unfold updateStrategyAllocation at h
  split_ifs at h with h1 h2 h3 h4 h5
  injection h with h6
  subst h6
  have hmem : b ∈ s.strategies := (hwf.2 b).mp (by simpa using h2)
  have hallact : ∀ x ∈ s.strategies, (s.info x).isActive :=
    fun x hx => (hwf.2 x).mpr hx
  refine ⟨⟨hwf.1, ?_⟩, ?_, ?_⟩
  · intro a
    by_cases hab : a = b
    · subst hab
      simpa [upd_same] using hwf.2 a
    · simp [upd_other _ _ hab, hwf.2 a]
  · show allocSumOf _ s.strategies = _
    have hall' : ∀ x ∈ s.strategies,
        ((upd s.info b { s.info b with targetAllocation := w }) x).isActive := by
      intro x hx
      by_cases hxb : x = b
      · subst hxb; simpa [upd_same] using hallact x hx
      · rw [upd_other _ _ hxb]; exact hallact x hx
    rw [allocSumOf_all_active hall']
    have hsum := sum_map_update_mem
      (f := fun a => (s.info a).targetAllocation)
      (g := fun a => ((upd s.info b
        ⟨w, (s.info b).totalDeposited, (s.info b).isActive⟩) a).targetAllocation)
      hwf.1 hmem (fun x hxb => by
        show ((upd s.info b
          ⟨w, (s.info b).totalDeposited, (s.info b).isActive⟩) x).targetAllocation
          = (s.info x).targetAllocation
        rw [upd_other _ _ hxb])
    have hold : (s.info b).targetAllocation
        ≤ (s.strategies.map (fun a => (s.info a).targetAllocation)).sum :=
      List.single_le_sum (fun x _ => Nat.zero_le x) _ (List.mem_map_of_mem _ hmem)
    have hbase : (s.strategies.map (fun a => (s.info a).targetAllocation)).sum
        = s.totalAllocation := by
      rw [← allocSumOf_all_active hallact, ← activeAllocSum_def, hinv.1]
    simp only [upd_same] at hsum
    have hfin : (s.strategies.map (fun a =>
        ((upd s.info b
          ⟨w, (s.info b).totalDeposited, (s.info b).isActive⟩) a).targetAllocation)).sum
        = s.totalAllocation - (s.info b).targetAllocation + w := by omega
    exact hfin
  · show s.totalAllocation - (s.info b).targetAllocation + w ≤ 10000
    omega

theorem remove_result_preserves {s s1 : VaultState} {b : Addr} {r : List Addr}
    (hwf : WF s) (hinv : AllocInv s)
    (hl : s1.strategies = s.strategies)
    (ht : s1.totalAllocation = s.totalAllocation)
    (hfields : ∀ x, (s1.info x).isActive = (s.info x).isActive ∧
                    (s1.info x).targetAllocation = (s.info x).targetAllocation)
    (hact : (s.info b).isActive)
    (hsp : swapPop s1.strategies b = some r)
    {s' : VaultState}
    (hs' : s'.strategies = r ∧
           s'.totalAllocation = s1.totalAllocation - (s1.info b).targetAllocation ∧
           s'.info = upd s1.info b { s1.info b with isActive := false }) :
    WF s' ∧ AllocInv s' := by
  obtain ⟨hs'l, hs't, hs'i⟩ := hs'
  have hmem : b ∈ s.strategies := (hwf.2 b).mp hact
  have hperm : List.Perm r (s.strategies.erase b) := swapPop_perm (hl ▸ hsp)
  have hndr : r.Nodup := hperm.nodup_iff.mpr (hwf.1.erase b)
  have hbr : b ∉ r := by
    rw [hperm.mem_iff, hwf.1.mem_erase_iff]
    simp
  refine ⟨⟨by rw [hs'l]; exact hndr, ?_⟩, ?_, ?_⟩
  · intro a
    rw [hs'l, hs'i]
    by_cases hab : a = b
    · subst hab
      simp [upd_same, hbr]
    · rw [upd_other _ _ hab]
      constructor
      · intro ha
        rw [hperm.mem_iff, hwf.1.mem_erase_iff]
        exact ⟨hab, (hwf.2 a).mp (by rw [← (hfields a).1]; exact ha)⟩
      · intro ha
        rw [hperm.mem_iff, hwf.1.mem_erase_iff] at ha
        rw [(hfields a).1]
        exact (hwf.2 a).mpr ha.2
  · show allocSumOf s'.info s'.strategies = _
    rw [hs'l, hs'i, hs't, ht, (hfields b).2]
    have hstep1 : allocSumOf (upd s1.info b { s1.info b with isActive := false }) r
        = allocSumOf (upd s1.info b { s1.info b with isActive := false })
            (s.strategies.erase b) := allocSumOf_perm _ hperm
    have hstep2 : allocSumOf (upd s1.info b { s1.info b with isActive := false })
        (s.strategies.erase b) = allocSumOf s.info (s.strategies.erase b) := by
      apply allocSumOf_congr
      intro x hx
      have hxb : x ≠ b := (hwf.1.mem_erase_iff.mp hx).1
      rw [upd_other _ _ hxb]
      exact hfields x
    have hstep3 := allocSumOf_erase (i := s.info) hmem hact
    have hbase : allocSumOf s.info s.strategies = s.totalAllocation := hinv.1
    rw [hstep1, hstep2]
    omega
  · rw [hs't, ht]
    have := hinv.2
    omega

theorem emergencyWithdraw_alloc_fields (s : VaultState) (b : Addr) :
    (emergencyWithdrawFromStrategy s b).strategies = s.strategies ∧
    (emergencyWithdrawFromStrategy s b).totalAllocation = s.totalAllocation ∧
    ∀ x, ((emergencyWithdrawFromStrategy s b).info x).isActive = (s.info x).isActive ∧
         ((emergencyWithdrawFromStrategy s b).info x).targetAllocation
           = (s.info x).targetAllocation := by
  unfold emergencyWithdrawFromStrategy
  by_cases h1 : (s.strat b).supply = 0
  · simp [h1]
  · by_cases h2 : (s.strat b).broken
    · simp [h1, h2]
    · refine ⟨by simp [h1, h2], by simp [h1, h2], ?_⟩
      intro x
      by_cases hx : x = b
      · subst hx
        simp [h1, h2, upd_same]
      · simp [h1, h2, upd_other _ _ hx]

theorem removeCore_preserves {s s1 s' : VaultState} {b : Addr}
    (hwf : WF s) (hinv : AllocInv s)
    (hl : s1.strategies = s.strategies)
    (ht : s1.totalAllocation = s.totalAllocation)
    (hfields : ∀ x, (s1.info x).isActive = (s.info x).isActive ∧
                    (s1.info x).targetAllocation = (s.info x).targetAllocation)
    (hact : (s.info b).isActive)
    (h : removeCore s1 b = .ok s') : WF s' ∧ AllocInv s' := by
  unfold removeCore at h
  split_ifs at h with hu
  cases hsp : swapPop s1.strategies b with
  | none => rw [hsp] at h; exact Except.noConfusion h
  | some r =>
    rw [hsp] at h
    injection h with h6
    subst h6
    exact remove_result_preserves hwf hinv hl ht hfields hact hsp ⟨rfl, rfl, rfl⟩

theorem removeStrategy_preserves {s s' : VaultState} {sender b : Addr}
    (hwf : WF s) (hinv : AllocInv s) (h : removeStrategy sender b s = .ok s') :
    WF s' ∧ AllocInv s' := by
  unfold removeStrategy at h
  split_ifs at h with h1 h2 h3
  · obtain ⟨hl, ht, hfields⟩ := emergencyWithdraw_alloc_fields s b
    exact removeCore_preserves hwf hinv hl ht hfields h2 h
  · exact removeCore_preserves hwf hinv rfl rfl (fun x => ⟨rfl, rfl⟩) h2 h

/-- The three registry-mutating owner operations. -/
inductive AdminOp where
  | add (strategy : Addr) (alloc : Nat)
  | reweight (strategy : Addr) (alloc : Nat)
  | remove (strategy : Addr)

/-- Apply one owner operation; a revert leaves the state unchanged. -/
def applyAdminOp (s : VaultState) : AdminOp → VaultState
  | .add b w =>
    match addStrategy s.owner b w s with
    | .ok s' => s'
    | .error _ => s
  | .reweight b w =>
    match updateStrategyAllocation s.owner b w s with
    | .ok s' => s'
    | .error _ => s
  | .remove b =>
    match removeStrategy s.owner b s with
    | .ok s' => s'
    | .error _ => s

/-- Apply a sequence of owner operations. -/
def applyAdminOps (s : VaultState) (ops : List AdminOp) : VaultState :=
  ops.foldl applyAdminOp s

theorem applyAdminOp_preserves {s : VaultState} (hwf : WF s) (hinv : AllocInv s)
    (op : AdminOp) : WF (applyAdminOp s op) ∧ AllocInv (applyAdminOp s op) := by
  cases op with
  | add b w =>
    show WF (match addStrategy s.owner b w s with
              | .ok s' => s' | .error _ => s) ∧
         AllocInv (match addStrategy s.owner b w s with
              | .ok s' => s' | .error _ => s)
    cases hrun : addStrategy s.owner b w s with
    | error e => exact ⟨hwf, hinv⟩
    | ok s' => exact addStrategy_preserves hwf hinv hrun
  | reweight b w =>
    show WF (match updateStrategyAllocation s.owner b w s with
              | .ok s' => s' | .error _ => s) ∧
         AllocInv (match updateStrategyAllocation s.owner b w s with
              | .ok s' => s' | .error _ => s)
    cases hrun : updateStrategyAllocation s.owner b w s with
    | error e => exact ⟨hwf, hinv⟩
    | ok s' => exact updateStrategyAllocation_preserves hwf hinv hrun
  | remove b =>
    show WF (match removeStrategy s.owner b s with
              | .ok s' => s' | .error _ => s) ∧
         AllocInv (match removeStrategy s.owner b s with
              | .ok s' => s' | .error _ => s)
    cases hrun : removeStrategy s.owner b s with
    | error e => exact ⟨hwf, hinv⟩
    | ok s' => exact removeStrategy_preserves hwf hinv hrun

/-- C4: in every state reachable from a well-formed state satisfying the
allocation invariant by any sequence of `addStrategy`,
`updateStrategyAllocation` and `removeStrategy` calls, the sum of
`targetAllocation` over active strategies equals the stored
`totalAllocation` and stays at most 10000 basis points; moreover
`addStrategy` and `updateStrategyAllocation` revert (hence, transactional
semantics, change nothing) on every input that would push the total over
10000 (`removeStrategy` only ever lowers it). -/
theorem allocation_invariant_preserved (s : VaultState)
    (hwf : WF s) (hinv : AllocInv s) :
    (∀ ops : List AdminOp,
      activeAllocSum (applyAdminOps s ops) = (applyAdminOps s ops).totalAllocation ∧
      (applyAdminOps s ops).totalAllocation ≤ 10000) ∧
    (∀ b w, 10000 < s.totalAllocation + w →
      (addStrategy s.owner b w s).isOk = false) ∧
    (∀ b w, 10000 < s.totalAllocation - (s.info b).targetAllocation + w →
      (updateStrategyAllocation s.owner b w s).isOk = false) := by
  refine ⟨?_, ?_, ?_⟩
  · intro ops
    suffices hgen : ∀ (ops : List AdminOp) (t : VaultState),
        WF t → AllocInv t →
        WF (applyAdminOps t ops) ∧ AllocInv (applyAdminOps t ops) by
      exact (hgen ops s hwf hinv).2
    intro ops
    induction ops with
    | nil => intro t h1 h2; exact ⟨h1, h2⟩
    | cons op rest ih =>
      intro t h1 h2
      have hstep := applyAdminOp_preserves h1 h2 op
      exact ih (applyAdminOp t op) hstep.1 hstep.2
  · intro b w hover
    unfold addStrategy
    split_ifs
    all_goals rfl
  · intro b w hover
    unfold updateStrategyAllocation
    split_ifs
    all_goals rfl

-- ============ C3: withdrawal liquidity routing ============

/-- Sum of the live-queried totals over the active entries of a list. -/
def liveSum (s : VaultState) (l : List Addr) : Nat :=
  ((l.filter (fun a => (s.info a).isActive)).map
    (fun a => stratTotalAssets (s.strat a))).sum

theorem liveSum_cons (s : VaultState) (a : Addr) (rest : List Addr) :
    liveSum s (a :: rest)
      = (if (s.info a).isActive then stratTotalAssets (s.strat a) else 0)
        + liveSum s rest := by
  by_cases h : (s.info a).isActive <;> simp [liveSum, List.filter_cons, h]

theorem liveSum_congr {s s' : VaultState} :
    ∀ {l : List Addr},
      (∀ b ∈ l, s'.info b = s.info b ∧ s'.strat b = s.strat b) →
      liveSum s' l = liveSum s l := by
  intro l
  induction l with
  | nil => intro _; rfl
  | cons c rest ih =>
    intro h
    rw [liveSum_cons, liveSum_cons, (h c (by simp)).1, (h c (by simp)).2,
      ih (fun x hx => h x (by simp [hx]))]

theorem withdrawFromStrategy_broken (s : VaultState) (a : Addr) (w : Nat)
    (hactive : (s.info a).isActive) (hbr : (s.strat a).broken = true)
    (hw : w ≠ 0) : withdrawFromStrategy s a w = .ok (0, s) := by
  unfold withdrawFromStrategy
  simp [hactive, hw, hbr]

/-- The routing loop never recovers more than the working strategies' live
holdings: each per-strategy pull is bounded by that strategy's idle
balance, and with a duplicate-free registry every strategy is drained at
most once. -/
theorem routerLoop_le (needed : Nat) :
    ∀ (l : List Addr) (w : Nat) (s : VaultState), l.Nodup →
      ∃ w' s', routerLoop needed l w s = .ok (w', s') ∧
        w' ≤ w + liveSum s l := by
  intro l
  induction l with
  | nil => intro w s _; exact ⟨w, s, rfl, by simp⟩
  | cons a rest ih =>
    intro w s hnd
    rcases List.nodup_cons.mp hnd with ⟨hna, hndr⟩
    unfold routerLoop
    by_cases hdone : w ≥ needed
    · exact ⟨w, s, by simp [hdone], by omega⟩
    · rw [if_neg hdone]
      by_cases hact : (s.info a).isActive
      · rw [if_neg (by simpa using hact)]
        by_cases htw : min (needed - w) (s.info a).totalDeposited > 0
        · rw [if_pos htw]
          by_cases hbr : (s.strat a).broken
          · rw [withdrawFromStrategy_broken s a _ hact hbr (by omega)]
            rcases ih w s hndr with ⟨w', s', hrun, hle⟩
            refine ⟨w', s', by simpa using hrun, ?_⟩
            rw [liveSum_cons]
            omega
          · rw [withdrawFromStrategy_ok s a _ hact (by simpa using hbr) (by omega)]
            rcases ih (w + pullAssets (s.strat a) (min (needed - w) (s.info a).totalDeposited))
              (pullState s a (min (needed - w) (s.info a).totalDeposited)) hndr
              with ⟨w', s', hrun, hle⟩
            refine ⟨w', s', by simpa using hrun, ?_⟩
            have hfr : liveSum (pullState s a (min (needed - w) (s.info a).totalDeposited)) rest
                = liveSum s rest := by
              apply liveSum_congr
              intro b hb
              have hba : b ≠ a := fun hc => hna (hc ▸ hb)
              exact ⟨upd_other _ _ hba, upd_other _ _ hba⟩
            have hpull := pullAssets_le_idle (s.strat a)
              (min (needed - w) (s.info a).totalDeposited)
            rw [liveSum_cons, if_pos hact]
            rw [hfr] at hle
            unfold stratTotalAssets totalDeployed
            omega
        · rw [if_neg htw]
          rcases ih w s hndr with ⟨w', s', hrun, hle⟩
          refine ⟨w', s', hrun, ?_⟩
          rw [liveSum_cons]
          omega
      · rw [if_pos (by simpa using hact)]
        rcases ih w s hndr with ⟨w', s', hrun, hle⟩
        refine ⟨w', s', hrun, ?_⟩
        rw [liveSum_cons, if_neg hact]
        omega

/-- C3 (amended): a withdrawal whose amount exceeds the buffer plus the sum
of the active strategies' LIVE holdings always fails with the named
`"insufficient strategy liquidity"` error; by the transactional `Except`
semantics the failed call leaves no post-state, i.e. every intermediate
strategy pull is rolled back.  (The recorded `totalDeposited` bound claimed
in the spec is refuted by `withdraw_exceeding_recorded_deposits_succeeds`:
a pull may return more than the recorded deposit once the strategy's share
price has appreciated.) -/
theorem withdraw_exceeding_live_strategy_assets_reverts (s : VaultState)
    (u r : Addr) (assets : Nat) (hnd : s.strategies.Nodup)
    (hgt : s.buffer + liveSum s s.strategies < assets) :
    withdraw u r assets s = .error "insufficient strategy liquidity" := by
  unfold withdraw beforeWithdraw
  rw [if_pos (by omega)]
  unfold withdrawFromStrategies
  rcases routerLoop_le (assets - s.buffer) s.strategies 0 s hnd with ⟨w', s', hrun, hle⟩
  rw [hrun]
  have hlt : w' < assets - s.buffer := by omega
  simp only [if_pos hlt]
  rfl

/-- The concrete state refuting the claim as written: one working strategy
(address 5) holding 100 idle units against 10 strategy shares (its share
price has appreciated through yield), while the vault's recorded
`totalDeposited` is only 10 and the buffer is empty; depositor 2 holds all
100 vault shares. -/
def overRecordedVault : VaultState := {
  vaultAddr := 10, owner := 1, paused := false, buffer := 0, supply := 100,
  shares := fun x => if x = 2 then 100 else 0,
  extBal := fun _ => 0,
  strategies := [5],
  info := fun x => if x = 5 then ⟨10000, 10, true⟩ else ⟨0, 0, false⟩,
  totalAllocation := 10000, minLiquidity := 1000000,
  allowance := fun _ => 0,
  strat := fun x => if x = 5 then ⟨1, 10, false, 100, 10, false⟩
                    else ⟨1, 10, false, 0, 0, false⟩ }

/-- C3 (counterexample): a withdrawal of 15 units exceeds the buffer (0)
plus the recorded deposits of all active strategies (10), yet it SUCCEEDS —
the strategy's redeem returns 18 units for the 10-unit request because its
share price has appreciated — contradicting the claim that any such
request fails with the insufficient-liquidity error and changes nothing. -/
theorem withdraw_exceeding_recorded_deposits_succeeds :
    overRecordedVault.buffer +
      ((overRecordedVault.strategies.filter
          (fun a => (overRecordedVault.info a).isActive)).map
        (fun a => (overRecordedVault.info a).totalDeposited)).sum < 15 ∧
    (withdraw 2 2 15 overRecordedVault).isOk = true := ⟨by decide, by decide⟩

-- ============ C7: strategy removal and evacuation ============

theorem swapPop_some_of_mem {l : List Addr} {b : Addr} (hmem : b ∈ l) :
    ∃ r, swapPop l b = some r := by
  rcases firstIdx_some_of_mem hmem with ⟨i, hi⟩
  exact ⟨_, by unfold swapPop; rw [hi]⟩

/-- C7 (amended): removing an active strategy always succeeds for the owner
(given the registry invariant): the emergency evacuation is attempted first
whenever the strategy holds nonzero recorded deposits, and for a working
strategy whose shares are outstanding the evacuation drives its redeemable
balance back to the vault's buffer and zeroes the recorded deposit; the
strategy then leaves the active set, its pull authorization is revoked and
its weight is subtracted from `totalAllocation` — but deregistration
happens even when the evacuation fails, so "only with its funds driven
back" does not hold in general (see the counterexample). -/
theorem removeStrategy_evacuates_then_deregisters (s : VaultState) (b : Addr)
    (hwf : WF s) (hact : (s.info b).isActive)
    (hu : (s.info b).targetAllocation ≤ s.totalAllocation) :
    ∃ s', removeStrategy s.owner b s = .ok s' ∧
      (s'.info b).isActive = false ∧
      b ∉ s'.strategies ∧
      s'.totalAllocation + (s.info b).targetAllocation = s.totalAllocation ∧
      s'.allowance b = 0 ∧
      ((s.info b).totalDeposited > 0 → (s.strat b).broken = false →
        (s.strat b).supply ≠ 0 →
        (s'.info b).totalDeposited = 0 ∧
        s'.buffer = s.buffer + convToAssetsDown (stratTotalAssets (s.strat b))
          (s.strat b).supply (s.strat b).supply ∧
        (s'.strat b).supply = 0) := by
  have hmem : b ∈ s.strategies := (hwf.2 b).mp hact
  unfold removeStrategy
  rw [if_neg (by simp), if_neg (by simpa using hact)]
  by_cases hdep : (s.info b).totalDeposited > 0
  · rw [if_pos hdep]
    obtain ⟨hl, ht, hfields⟩ := emergencyWithdraw_alloc_fields s b
    rcases swapPop_some_of_mem (hl ▸ hmem : b ∈ (emergencyWithdrawFromStrategy s b).strategies)
      with ⟨r, hsp⟩
    have hnr : b ∉ r := by
      have hperm := swapPop_perm ((hl ▸ hsp) : swapPop s.strategies b = some r)
      rw [hperm.mem_iff, hwf.1.mem_erase_iff]
      simp
    unfold removeCore
    rw [if_neg (by rw [ht, (hfields b).2]; omega), hsp]
    refine ⟨_, rfl, by simp [upd_same], hnr, ?_, by simp [upd_same], ?_⟩
    · show (emergencyWithdrawFromStrategy s b).totalAllocation
        - ((emergencyWithdrawFromStrategy s b).info b).targetAllocation
        + (s.info b).targetAllocation = s.totalAllocation
      rw [ht, (hfields b).2]
      omega
    · intro _ hbrk hsup
      unfold emergencyWithdrawFromStrategy
      rw [if_neg hsup, if_pos (by simp [hbrk])]
      refine ⟨by simp [upd_same], rfl, by simp [upd_same]⟩
  · rw [if_neg hdep]
    rcases swapPop_some_of_mem hmem with ⟨r, hsp⟩
    have hnr : b ∉ r := by
      have hperm := swapPop_perm hsp
      rw [hperm.mem_iff, hwf.1.mem_erase_iff]
      simp
    unfold removeCore
    rw [if_neg (by omega), hsp]
    refine ⟨_, rfl, by simp [upd_same], hnr, ?_, by simp [upd_same], ?_⟩
    · show s.totalAllocation - (s.info b).targetAllocation
        + (s.info b).targetAllocation = s.totalAllocation
      omega
    · intro hd
      omega

/-- A vault holding a bricked strategy (address 5, weight 4000 bps,
recorded deposit 10) that still physically holds 100 asset units; every
call to the strategy reverts. -/
def brickedStratVault : VaultState := {
  vaultAddr := 10, owner := 1, paused := false, buffer := 7, supply := 100,
  shares := fun x => if x = 2 then 100 else 0,
  extBal := fun _ => 0,
  strategies := [5],
  info := fun x => if x = 5 then ⟨4000, 10, true⟩ else ⟨0, 0, false⟩,
  totalAllocation := 4000, minLiquidity := 1,
  allowance := fun x => if x = 5 then MAXUINT else 0,
  strat := fun x => if x = 5 then ⟨1, 10, false, 100, 10, true⟩
                    else ⟨1, 10, false, 0, 0, false⟩ }

/-- C7 (counterexample): when both evacuation paths fail (bricked
strategy), `removeStrategy` still succeeds and removes the strategy from
the active set with its weight freed — while the recorded deposit stays 10,
the buffer is unchanged and the strategy still holds its 100 units; so a
strategy can leave the active set WITHOUT its funds having been driven back
to the vault, refuting the claim as stated. -/
theorem removeStrategy_removes_despite_failed_evacuation :
    ((removeStrategy 1 5 brickedStratVault).toOption.map (fun s' =>
      ((s'.info 5).isActive, decide (5 ∈ s'.strategies),
       (s'.info 5).totalDeposited, s'.buffer, s'.totalAllocation,
       (s'.strat 5).idle)))
      = some (false, false, 10, 7, 0, 100) := by decide


-- ============ C9: pausing blocks entry, never exit ============

/-- Flip only the vault's `Pausable` flag. -/
def setPausedV (s : VaultState) (b : Bool) : VaultState := { s with paused := b }

/-- Flip only a strategy's `Pausable` flag. -/
def setPausedS (st : StratState) (b : Bool) : StratState := { st with paused := b }

@[simp] theorem setPausedV_info (s : VaultState) (b : Bool) :
    (setPausedV s b).info = s.info := rfl

@[simp] theorem setPausedV_strat (s : VaultState) (b : Bool) :
    (setPausedV s b).strat = s.strat := rfl

@[simp] theorem setPausedV_buffer (s : VaultState) (b : Bool) :
    (setPausedV s b).buffer = s.buffer := rfl

@[simp] theorem setPausedV_supply (s : VaultState) (b : Bool) :
    (setPausedV s b).supply = s.supply := rfl

@[simp] theorem setPausedV_shares (s : VaultState) (b : Bool) :
    (setPausedV s b).shares = s.shares := rfl

@[simp] theorem setPausedV_extBal (s : VaultState) (b : Bool) :
    (setPausedV s b).extBal = s.extBal := rfl

@[simp] theorem setPausedV_strategies (s : VaultState) (b : Bool) :
    (setPausedV s b).strategies = s.strategies := rfl

@[simp] theorem setPausedS_idle (st : StratState) (b : Bool) :
    (setPausedS st b).idle = st.idle := rfl

@[simp] theorem setPausedS_supply (st : StratState) (b : Bool) :
    (setPausedS st b).supply = st.supply := rfl

@[simp] theorem setPausedS_broken (st : StratState) (b : Bool) :
    (setPausedS st b).broken = st.broken := rfl

@[simp] theorem setPausedS_vault (st : StratState) (b : Bool) :
    (setPausedS st b).vault = st.vault := rfl

@[simp] theorem stratTotalAssets_setPaused (st : StratState) (b : Bool) :
    stratTotalAssets (setPausedS st b) = stratTotalAssets st := rfl

@[simp] theorem totalAssets_setPaused (s : VaultState) (b : Bool) :
    totalAssets (setPausedV s b) = totalAssets s := by
  unfold totalAssets
  have hloop : ∀ (l : List Addr) (acc : Nat),
      strategyAssetsLoop (setPausedV s b) l acc = strategyAssetsLoop s l acc := by
    intro l
    induction l with
    | nil => intro acc; rfl
    | cons a rest ih =>
      intro acc
      show strategyAssetsLoop (setPausedV s b) rest (acc + stratContrib (setPausedV s b) a)
        = strategyAssetsLoop s rest (acc + stratContrib s a)
      exact ih _
  rw [hloop]
  rfl

@[simp] theorem previewWithdraw_setPaused (s : VaultState) (b : Bool) (n : Nat) :
    previewWithdraw (setPausedV s b) n = previewWithdraw s n := by
  unfold previewWithdraw
  rw [totalAssets_setPaused]
  rfl

@[simp] theorem previewRedeem_setPaused (s : VaultState) (b : Bool) (n : Nat) :
    previewRedeem (setPausedV s b) n = previewRedeem s n := by
  unfold previewRedeem
  rw [totalAssets_setPaused]
  rfl

theorem withdrawFromStrategy_setPaused (s : VaultState) (b : Bool) (a : Addr)
    (w : Nat) :
    withdrawFromStrategy (setPausedV s b) a w
      = (withdrawFromStrategy s a w).map (fun p => (p.1, setPausedV p.2 b)) := by
  unfold withdrawFromStrategy
  dsimp only [setPausedV]
  split_ifs <;> simp [Except.map]

theorem routerLoop_setPaused (needed : Nat) :
    ∀ (l : List Addr) (w : Nat) (s : VaultState) (b : Bool),
      routerLoop needed l w (setPausedV s b)
        = (routerLoop needed l w s).map (fun p => (p.1, setPausedV p.2 b)) := by
  intro l
  induction l with
  | nil => intro w s b; rfl
  | cons a rest ih =>
    intro w s b
    unfold routerLoop
    simp only [setPausedV_info]
    split_ifs with h1 h2 h3
    · rfl
    · rw [withdrawFromStrategy_setPaused]
      cases hres : withdrawFromStrategy s a
          (min (needed - w) (s.info a).totalDeposited) with
      | error e => rfl
      | ok p => exact ih (w + p.1) p.2 b
    · exact ih w s b
    · exact ih w s b

theorem withdrawFromStrategies_setPaused (needed : Nat) (s : VaultState) (b : Bool) :
    withdrawFromStrategies needed (setPausedV s b)
      = (withdrawFromStrategies needed s).map (fun s' => setPausedV s' b) := by
  unfold withdrawFromStrategies
  rw [setPausedV_strategies, routerLoop_setPaused]
  cases routerLoop needed s.strategies 0 s with
  | error e => rfl
  | ok p =>
    by_cases h : p.1 < needed <;> simp [Except.map, h]

theorem beforeWithdraw_setPaused (assets : Nat) (s : VaultState) (b : Bool) :
    beforeWithdraw assets (setPausedV s b)
      = (beforeWithdraw assets s).map (fun s' => setPausedV s' b) := by
  unfold beforeWithdraw
  rw [setPausedV_buffer]
  by_cases h : s.buffer < assets
  · rw [if_pos h, if_pos h]
    exact withdrawFromStrategies_setPaused _ s b
  · rw [if_neg h, if_neg h]
    rfl

theorem superWithdraw_setPaused (u r : Addr) (assets : Nat) (s : VaultState)
    (b : Bool) :
    superWithdraw u r assets (setPausedV s b)
      = (superWithdraw u r assets s).map (fun p => (p.1, setPausedV p.2 b)) := by
  unfold superWithdraw
  simp only [setPausedV_supply, setPausedV_shares, setPausedV_buffer,
    setPausedV_extBal, totalAssets_setPaused, previewWithdraw_setPaused]
  split_ifs <;> rfl

theorem superRedeem_setPaused (u r : Addr) (sh : Nat) (s : VaultState) (b : Bool) :
    superRedeem u r sh (setPausedV s b)
      = (superRedeem u r sh s).map (fun p => (p.1, setPausedV p.2 b)) := by
  unfold superRedeem
  simp only [setPausedV_supply, setPausedV_shares, setPausedV_buffer,
    setPausedV_extBal, totalAssets_setPaused, previewRedeem_setPaused]
  split_ifs <;> rfl

/-- C9: while the vault is paused, `deposit` and `mint` revert with the
`Pausable` error (and, the semantics being transactional, change nothing),
while `withdraw` and `redeem` run exactly as they would unpaused — the
pause flag is never read on the exit path, so flipping it changes nothing
in the outcome except the flag itself carried through to the final state;
the same holds for a `StrategyBase` instance under its own pause flag
(deposit/mint gated by `whenNotPaused`, withdraw/redeem not). -/
theorem pause_blocks_deposits_not_withdrawals :
    (∀ (s : VaultState) (u r : Addr) (n : Nat), s.paused →
      deposit u r n s = .error "EnforcedPause" ∧
      mint u r n s = .error "EnforcedPause") ∧
    (∀ (s : VaultState) (b : Bool) (u r : Addr) (n : Nat),
      withdraw u r n (setPausedV s b)
        = (withdraw u r n s).map (fun p => (p.1, setPausedV p.2 b)) ∧
      redeem u r n (setPausedV s b)
        = (redeem u r n s).map (fun p => (p.1, setPausedV p.2 b))) ∧
    (∀ (st : StratState) (sender : Addr) (n : Nat),
      st.paused → st.broken = false →
      stratDeposit sender n st = .error "EnforcedPause" ∧
      stratMint sender n st = .error "EnforcedPause") ∧
    (∀ (st : StratState) (b : Bool) (sender : Addr) (n : Nat),
      stratWithdraw sender n (setPausedS st b)
        = (stratWithdraw sender n st).map (fun p => (p.1, setPausedS p.2 b)) ∧
      stratRedeem sender n (setPausedS st b)
        = (stratRedeem sender n st).map (fun p => (p.1, setPausedS p.2 b))) := by
  refine ⟨?_, ?_, ?_, ?_⟩
  · intro s u r n hp
    exact ⟨by simp [deposit, hp], by simp [mint, hp]⟩
  · intro s b u r n
    constructor
    · unfold withdraw
      rw [beforeWithdraw_setPaused]
      cases beforeWithdraw n s with
      | error e => rfl
      | ok s1 => simpa [Except.map] using superWithdraw_setPaused u r n s1 b
    · unfold redeem
      rw [previewRedeem_setPaused]
      show (do
          let s1 ← beforeWithdraw (previewRedeem s n) (setPausedV s b)
          superRedeem u r n s1) =
        (do
          let s1 ← beforeWithdraw (previewRedeem s n) s
          superRedeem u r n s1).map
          (fun p : Nat × VaultState => (p.1, setPausedV p.2 b))
      rw [beforeWithdraw_setPaused]
      cases beforeWithdraw (previewRedeem s n) s with
      | error e => rfl
      | ok s1 => simpa [Except.map] using superRedeem_setPaused u r n s1 b
  · intro st sender n hp hbr
    exact ⟨by simp [stratDeposit, hp, hbr], by simp [stratMint, hp, hbr]⟩
  · intro st b sender n
    constructor
    · unfold stratWithdraw
      simp only [setPausedS_broken, setPausedS_vault, setPausedS_supply,
        setPausedS_idle, stratTotalAssets_setPaused]
      split_ifs <;> rfl
    · unfold stratRedeem
      simp only [setPausedS_broken, setPausedS_vault, setPausedS_supply,
        setPausedS_idle, stratTotalAssets_setPaused]
      split_ifs <;> rfl

-- ============ C6: deposit/redeem round trip without yield ============

theorem convToSharesDown_rate1 (A n : Nat) : convToSharesDown A A n = n := by
  unfold convToSharesDown mulDivDown
  exact Nat.mul_div_cancel n (by omega)

theorem convToAssetsDown_rate1 (A n : Nat) : convToAssetsDown A A n = n := by
  unfold convToAssetsDown mulDivDown
  exact Nat.mul_div_cancel n (by omega)

theorem convToSharesUp_rate1 (A n : Nat) : convToSharesUp A A n = n := by
  unfold convToSharesUp mulDivUp
  have h1 : n * (A + 1) + (A + 1 - 1) = A + n * (A + 1) := by omega
  rw [h1, Nat.add_mul_div_right A n (by omega), Nat.div_eq_of_lt (by omega)]
  omega

/-- The no-yield regime for the registered strategies: every listed strategy
contract is working and unpaused, holds its assets 1:1 against its share
supply, and the vault's recorded deposit matches that supply. -/
def StratSync (s : VaultState) : Prop :=
  ∀ a ∈ s.strategies,
    (s.strat a).broken = false ∧ (s.strat a).paused = false ∧
    (s.strat a).idle = (s.strat a).supply ∧
    (s.info a).totalDeposited = (s.strat a).supply

theorem strategyAssetsLoop_ext {s s' : VaultState}
    (hinfo : s'.info = s.info) (hstrat : s'.strat = s.strat) :
    ∀ (l : List Addr) (acc : Nat),
      strategyAssetsLoop s' l acc = strategyAssetsLoop s l acc := by
  intro l
  induction l with
  | nil => intro acc; rfl
  | cons a rest ih =>
    intro acc
    show strategyAssetsLoop s' rest (acc + stratContrib s' a)
      = strategyAssetsLoop s rest (acc + stratContrib s a)
    rw [show stratContrib s' a = stratContrib s a from by
      unfold stratContrib; rw [hinfo, hstrat]]
    exact ih _

/-- Sum of recorded deposits over a list of strategies. -/
def depSum (s : VaultState) (l : List Addr) : Nat :=
  (l.map (fun a => (s.info a).totalDeposited)).sum

theorem depSum_congr {s s' : VaultState} :
    ∀ {l : List Addr}, (∀ b ∈ l, s'.info b = s.info b) →
      depSum s' l = depSum s l := by
  intro l
  induction l with
  | nil => intro _; rfl
  | cons c rest ih =>
    intro h
    have hstep : depSum s' (c :: rest) = (s'.info c).totalDeposited + depSum s' rest := by
      simp [depSum]
    have hstep2 : depSum s (c :: rest) = (s.info c).totalDeposited + depSum s rest := by
      simp [depSum]
    rw [hstep, hstep2, h c (by simp), ih (fun x hx => h x (by simp [hx]))]

/-- Under the no-yield regime (and with every listed strategy active),
`totalAssets` is the buffer plus the recorded deposits. -/
theorem totalAssets_eq_buffer_add_depSum (s : VaultState)
    (hsync : StratSync s) (hact : ∀ a ∈ s.strategies, (s.info a).isActive) :
    totalAssets s = s.buffer + depSum s s.strategies := by
  rw [totalAssets_sum]
  congr 1
  unfold depSum
  apply congrArg
  apply List.map_congr_left
  intro a ha
  rcases hsync a ha with ⟨hbr, _, hidle, hdep⟩
  simp [stratContrib, hact a ha, hbr, stratTotalAssets, totalDeployed, hidle, hdep]

/-- A strategy deposit in the no-yield regime mints exactly `amt` strategy
shares and preserves total managed assets and the regime itself. -/
theorem depState_step (s : VaultState) (a : Addr) (amt : Nat)
    (hnd : s.strategies.Nodup) (hmem : a ∈ s.strategies)
    (hsync : StratSync s) (hact : (s.info a).isActive) (hbuf : amt ≤ s.buffer) :
    totalAssets (depState s a amt) = totalAssets s ∧
    StratSync (depState s a amt) ∧
    (depState s a amt).supply = s.supply ∧
    (depState s a amt).shares = s.shares ∧
    (depState s a amt).extBal = s.extBal ∧
    (depState s a amt).paused = s.paused ∧
    (depState s a amt).strategies = s.strategies ∧
    (∀ x, ((depState s a amt).info x).isActive = (s.info x).isActive) := by
  rcases hsync a hmem with ⟨hbr, hps, hidle, hdep⟩
  have hta : stratTotalAssets (s.strat a) = (s.strat a).supply := by
    unfold stratTotalAssets totalDeployed
    omega
  have hminted : convToSharesDown (stratTotalAssets (s.strat a)) (s.strat a).supply amt
      = amt := by
    rw [hta]
    exact convToSharesDown_rate1 _ _
  refine ⟨?_, ?_, rfl, rfl, rfl, rfl, rfl, ?_⟩
  · have hfr := @totalAssets_one_strategy_change s (depState s a amt) a rfl hnd hmem
      (fun b hb => upd_other _ _ hb) (fun b hb => upd_other _ _ hb)
    have hca : stratContrib s a = (s.strat a).idle := by
      simp [stratContrib, hact, hbr, stratTotalAssets, totalDeployed]
    have hca' : stratContrib (depState s a amt) a = (s.strat a).idle + amt := by
      simp [stratContrib, depState, upd_same, hact, hbr, stratTotalAssets, totalDeployed]
    have hbuf' : (depState s a amt).buffer = s.buffer - amt := rfl
    omega
  · intro b hb
    have hb' : b ∈ s.strategies := hb
    by_cases hba : b = a
    · subst hba
      refine ⟨by simp [depState, upd_same, hbr], by simp [depState, upd_same, hps],
        ?_, ?_⟩
      · simp only [depState, upd_same]
        rw [hminted]
        omega
      · simp only [depState, upd_same]
        rw [hminted]
        omega
    · rcases hsync b hb' with ⟨h1, h2, h3, h4⟩
      refine ⟨?_, ?_, ?_, ?_⟩ <;>
        simp [depState, upd_other _ _ hba, h1, h2, h3, h4]
  · intro x
    by_cases hxa : x = a
    · subst hxa
      simp [depState, upd_same]
    · simp [depState, upd_other _ _ hxa]

/-- A strategy pull in the no-yield regime returns exactly the requested
amount and preserves total managed assets and the regime itself. -/
theorem pullState_step (s : VaultState) (a : Addr) (w : Nat)
    (hnd : s.strategies.Nodup) (hmem : a ∈ s.strategies)
    (hsync : StratSync s) (hact : (s.info a).isActive)
    (hw : w ≤ (s.info a).totalDeposited) :
    pullAssets (s.strat a) w = w ∧
    totalAssets (pullState s a w) = totalAssets s ∧
    StratSync (pullState s a w) ∧
    (pullState s a w).supply = s.supply ∧
    (pullState s a w).shares = s.shares ∧
    (pullState s a w).extBal = s.extBal ∧
    (pullState s a w).paused = s.paused ∧
    (pullState s a w).strategies = s.strategies ∧
    (pullState s a w).buffer = s.buffer + w ∧
    (∀ x, ((pullState s a w).info x).isActive = (s.info x).isActive) := by
  rcases hsync a hmem with ⟨hbr, hps, hidle, hdep⟩
  have hta : stratTotalAssets (s.strat a) = (s.strat a).supply := by
    unfold stratTotalAssets totalDeployed
    omega
  have hshares : min (convToSharesUp (stratTotalAssets (s.strat a)) (s.strat a).supply w)
      (s.strat a).supply = w := by
    rw [hta, convToSharesUp_rate1]
    omega
  have hassets : pullAssets (s.strat a) w = w := by
    unfold pullAssets
    rw [hshares, hta, convToAssetsDown_rate1]
  refine ⟨hassets, pullState_totalAssets s a w hnd hmem hact hbr, ?_, rfl, rfl, rfl,
    rfl, rfl, ?_, ?_⟩
  · intro b hb
    have hb' : b ∈ s.strategies := hb
    by_cases hba : b = a
    · subst hba
      refine ⟨by simp [pullState, upd_same, hbr], by simp [pullState, upd_same, hps],
        ?_, ?_⟩
      · simp only [pullState, upd_same]
        rw [hassets, hshares]
        omega
      · simp only [pullState, upd_same]
        rw [hassets, hshares]
        omega
    · rcases hsync b hb' with ⟨h1, h2, h3, h4⟩
      refine ⟨?_, ?_, ?_, ?_⟩ <;>
        simp [pullState, upd_other _ _ hba, h1, h2, h3, h4]
  · show s.buffer + pullAssets (s.strat a) w = s.buffer + w
    rw [hassets]
  · intro x
    by_cases hxa : x = a
    · subst hxa
      simp [pullState, upd_same]
    · simp [pullState, upd_other _ _ hxa]

/-- The rebalancing pass in the no-yield regime always succeeds, moves
value only between buffer and strategies (total managed assets invariant),
and preserves the regime, the share ledger and the user balances. -/
theorem autoDeployLoop_ok (d : Nat) :
    ∀ (l : List Addr) (s : VaultState),
      s.strategies.Nodup → StratSync s → (∀ a ∈ l, a ∈ s.strategies) →
      ∃ s', autoDeployLoop d l s = .ok s' ∧
        totalAssets s' = totalAssets s ∧ StratSync s' ∧
        s'.supply = s.supply ∧ s'.shares = s.shares ∧ s'.extBal = s.extBal ∧
        s'.paused = s.paused ∧ s'.strategies = s.strategies ∧
        (∀ x, (s'.info x).isActive = (s.info x).isActive) := by
  intro l
  induction l with
  | nil =>
    intro s hnd hsync _
    exact ⟨s, rfl, rfl, hsync, rfl, rfl, rfl, rfl, rfl, fun _ => rfl⟩
  | cons a rest ih =>
    intro s hnd hsync hsub
    have hmem : a ∈ s.strategies := hsub a (by simp)
    have hsubr : ∀ b ∈ rest, b ∈ s.strategies := fun b hb => hsub b (by simp [hb])
    unfold autoDeployLoop
    by_cases hact : (s.info a).isActive
    · rw [if_neg (by simpa using hact)]
      by_cases hgt : d * (s.info a).targetAllocation / 10000
          > (s.info a).totalDeposited
      · rw [if_pos hgt]
        by_cases hdz : min (d * (s.info a).targetAllocation / 10000
            - (s.info a).totalDeposited) s.buffer > 0
        · rw [if_pos hdz]
          rcases hsync a hmem with ⟨hbr, hps, _, _⟩
          rw [depositToStrategy_ok s a _ hact (by omega) (Nat.min_le_right _ _) hbr hps]
          obtain ⟨hTA, hsync', hsup, hsh, hext, hpa, hstr, hac⟩ :=
            depState_step s a (min (d * (s.info a).targetAllocation / 10000
              - (s.info a).totalDeposited) s.buffer) hnd hmem hsync hact
              (Nat.min_le_right _ _)
          rcases ih (depState s a _) (by rw [hstr]; exact hnd) hsync'
            (fun b hb => by rw [hstr]; exact hsubr b hb) with
            ⟨s', hrun, hTA', hsync'', hsup', hsh', hext', hpa', hstr', hac'⟩
          exact ⟨s', hrun, by rw [hTA', hTA], hsync'',
            by rw [hsup', hsup], by rw [hsh', hsh], by rw [hext', hext],
            by rw [hpa', hpa], by rw [hstr', hstr],
            fun x => by rw [hac' x, hac x]⟩
        · rw [if_neg hdz]
          exact ih s hnd hsync hsubr
      · rw [if_neg hgt]
        by_cases hlt : d * (s.info a).targetAllocation / 10000
            < (s.info a).totalDeposited
        · rw [if_pos hlt]
          rcases hsync a hmem with ⟨hbr, hps, _, _⟩
          rw [withdrawFromStrategy_ok s a _ hact hbr (by omega)]
          obtain ⟨hpw, hTA, hsync', hsup, hsh, hext, hpa, hstr, hbuf, hac⟩ :=
            pullState_step s a ((s.info a).totalDeposited
              - d * (s.info a).targetAllocation / 10000) hnd hmem hsync hact
              (by omega)
          rcases ih (pullState s a _) (by rw [hstr]; exact hnd) hsync'
            (fun b hb => by rw [hstr]; exact hsubr b hb) with
            ⟨s', hrun, hTA', hsync'', hsup', hsh', hext', hpa', hstr', hac'⟩
          exact ⟨s', hrun, by rw [hTA', hTA], hsync'',
            by rw [hsup', hsup], by rw [hsh', hsh], by rw [hext', hext],
            by rw [hpa', hpa], by rw [hstr', hstr],
            fun x => by rw [hac' x, hac x]⟩
        · rw [if_neg hlt]
          exact ih s hnd hsync hsubr
    · rw [if_pos (by simpa using hact)]
      exact ih s hnd hsync hsubr

/-- `_autoDeployFunds` in the no-yield regime. -/
theorem autoDeployFunds_ok (s : VaultState)
    (hnd : s.strategies.Nodup) (hsync : StratSync s) :
    ∃ s', autoDeployFunds s = .ok s' ∧
      totalAssets s' = totalAssets s ∧ StratSync s' ∧
      s'.supply = s.supply ∧ s'.shares = s.shares ∧ s'.extBal = s.extBal ∧
      s'.paused = s.paused ∧ s'.strategies = s.strategies ∧
      (∀ x, (s'.info x).isActive = (s.info x).isActive) := by
  unfold autoDeployFunds
  by_cases h : totalAssets s ≤ s.minLiquidity
  · rw [if_pos h]
    exact ⟨s, rfl, rfl, hsync, rfl, rfl, rfl, rfl, rfl, fun _ => rfl⟩
  · rw [if_neg h]
    exact autoDeployLoop_ok _ s.strategies s hnd hsync (fun _ hb => hb)

/-- The withdrawal routing loop in the no-yield regime recovers exactly
`min(needed − withdrawn, Σ recorded deposits)` and credits it to the
buffer, preserving total managed assets, the regime, the share ledger and
the user balances. -/
theorem routerLoop_sync (needed : Nat) :
    ∀ (l : List Addr) (w : Nat) (s : VaultState),
      l.Nodup → s.strategies.Nodup → StratSync s →
      (∀ a ∈ l, a ∈ s.strategies) → (∀ a ∈ l, (s.info a).isActive) →
      ∃ s', routerLoop needed l w s = .ok (w + min (needed - w) (depSum s l), s') ∧
        totalAssets s' = totalAssets s ∧ StratSync s' ∧
        s'.supply = s.supply ∧ s'.shares = s.shares ∧ s'.extBal = s.extBal ∧
        s'.paused = s.paused ∧ s'.strategies = s.strategies ∧
        s'.buffer = s.buffer + min (needed - w) (depSum s l) ∧
        (∀ x, (s'.info x).isActive = (s.info x).isActive) := by
  intro l
  induction l with
  | nil =>
    intro w s _ hnd hsync _ _
    refine ⟨s, ?_, rfl, hsync, rfl, rfl, rfl, rfl, rfl, by simp [depSum], fun _ => rfl⟩
    simp [routerLoop, depSum]
  | cons a rest ih =>
    intro w s hndl hnd hsync hsub hall
    rcases List.nodup_cons.mp hndl with ⟨hna, hndr⟩
    have hmem : a ∈ s.strategies := hsub a (by simp)
    have hsubr : ∀ b ∈ rest, b ∈ s.strategies := fun b hb => hsub b (by simp [hb])
    have hallr : ∀ b ∈ rest, (s.info b).isActive := fun b hb => hall b (by simp [hb])
    have hacta : (s.info a).isActive := hall a (by simp)
    have hdepsum : depSum s (a :: rest)
        = (s.info a).totalDeposited + depSum s rest := by simp [depSum]
    unfold routerLoop
    by_cases hdone : w ≥ needed
    · rw [if_pos hdone]
      refine ⟨s, ?_, rfl, hsync, rfl, rfl, rfl, rfl, rfl, ?_, fun _ => rfl⟩
      · have hz : min (needed - w) (depSum s (a :: rest)) = 0 := by omega
        rw [hz]
        simp
      · have hz : min (needed - w) (depSum s (a :: rest)) = 0 := by omega
        rw [hz]
        omega
    · rw [if_neg hdone, if_neg (by simpa using hacta)]
      by_cases htw : min (needed - w) (s.info a).totalDeposited > 0
      · rw [if_pos htw]
        rcases hsync a hmem with ⟨hbr, _, _, _⟩
        rw [withdrawFromStrategy_ok s a _ hacta hbr (by omega)]
        obtain ⟨hpw, hTA, hsync', hsup, hsh, hext, hpa, hstr, hbuf, hac⟩ :=
          pullState_step s a (min (needed - w) (s.info a).totalDeposited)
            hnd hmem hsync hacta (Nat.min_le_right _ _)
        set toW := min (needed - w) (s.info a).totalDeposited with htoW
        set s2 := pullState s a toW with hs2
        rcases ih (w + pullAssets (s.strat a) toW) s2 hndr
          (by rw [hs2, hstr]; exact hnd) hsync'
          (fun b hb => by rw [hs2, hstr]; exact hsubr b hb)
          (fun b hb => by rw [hs2, hac b]; exact hallr b hb) with
          ⟨s', hrun, hTA', hsync'', hsup', hsh', hext', hpa', hstr', hbuf', hac'⟩
        have hds : depSum s2 rest = depSum s rest := by
          apply depSum_congr
          intro b hb
          have hba : b ≠ a := fun hc => hna (hc ▸ hb)
          show (pullState s a toW).info b = s.info b
          exact upd_other _ _ hba
        rw [hpw] at hrun
        refine ⟨s', ?_, by rw [hTA', hTA], hsync'',
          by rw [hsup', hsup], by rw [hsh', hsh], by rw [hext', hext],
          by rw [hpa', hpa], by rw [hstr', hstr], ?_,
          fun x => by rw [hac' x, hac x]⟩
        · have harith : w + toW + min (needed - (w + toW)) (depSum s2 rest)
              = w + min (needed - w) (depSum s (a :: rest)) := by
            rw [hds, hdepsum]
            omega
          show routerLoop needed rest (w + pullAssets (s.strat a) toW) s2
            = Except.ok (w + min (needed - w) (depSum s (a :: rest)), s')
          rw [hpw, hrun, harith]
        · rw [hbuf', hds, hbuf, hdepsum]
          omega
      · rw [if_neg htw]
        have hdz : (s.info a).totalDeposited = 0 := by omega
        rcases ih w s hndr hnd hsync hsubr hallr with
          ⟨s', hrun, hTA', hsync'', hsup', hsh', hext', hpa', hstr', hbuf', hac'⟩
        refine ⟨s', ?_, hTA', hsync'', hsup', hsh', hext', hpa', hstr', ?_,
          hac'⟩
        · rw [hrun, hdepsum, hdz]
          simp
        · rw [hbuf', hdepsum, hdz]
          simp

/-- `_beforeWithdraw` in the no-yield regime: when the request is covered
by total managed assets, the routing succeeds and leaves the buffer able to
pay out `assets`, with total managed assets, the share ledger and user
balances untouched. -/
theorem beforeWithdraw_sync (assets : Nat) (s : VaultState)
    (hnd : s.strategies.Nodup) (hsync : StratSync s)
    (hall : ∀ a ∈ s.strategies, (s.info a).isActive)
    (hle : assets ≤ totalAssets s) :
    ∃ s', beforeWithdraw assets s = .ok s' ∧
      assets ≤ s'.buffer ∧
      totalAssets s' = totalAssets s ∧ StratSync s' ∧
      s'.supply = s.supply ∧ s'.shares = s.shares ∧ s'.extBal = s.extBal ∧
      s'.paused = s.paused ∧ s'.strategies = s.strategies ∧
      (∀ x, (s'.info x).isActive = (s.info x).isActive) := by
  unfold beforeWithdraw
  by_cases hcov : s.buffer < assets
  · rw [if_pos hcov]
    have htot := totalAssets_eq_buffer_add_depSum s hsync hall
    have hneed : assets - s.buffer ≤ depSum s s.strategies := by omega
    unfold withdrawFromStrategies
    rcases routerLoop_sync (assets - s.buffer) s.strategies 0 s hnd hnd hsync
      (fun _ hb => hb) hall with
      ⟨s', hrun, hTA', hsync', hsup', hsh', hext', hpa', hstr', hbuf', hac'⟩
    rw [hrun]
    have hnlt : ¬(0 + min (assets - s.buffer - 0) (depSum s s.strategies)
        < assets - s.buffer) := by omega
    refine ⟨s', ?_, ?_, hTA', hsync', hsup', hsh', hext', hpa', hstr', hac'⟩
    · show (if 0 + min (assets - s.buffer - 0) (depSum s s.strategies)
            < assets - s.buffer
          then (Except.error "insufficient strategy liquidity" : Except String VaultState)
          else Except.ok s') = Except.ok s'
      rw [if_neg hnlt]
    · rw [hbuf']
      omega
  · rw [if_neg hcov]
    exact ⟨s, rfl, by omega, rfl, hsync, rfl, rfl, rfl, rfl, rfl, fun _ => rfl⟩

/-- C6: with no yield injected (share price 1:1, `totalAssets = totalSupply`,
every strategy in the 1:1 no-yield regime) and no fees, depositing `A`
assets mints exactly `A` shares (rounded down: `A·(S+1)/(A₀+1)` with
`A₀ = S`), and immediately redeeming those `A` shares — previews rounded in
the ledger's favor throughout — returns exactly `A` assets: the round-trip
loss is 0, within the claimed "few smallest units". -/
theorem deposit_redeem_round_trip_exact (s : VaultState) (u : Addr) (A : Nat)
    (hwf : WF s) (hsync : StratSync s) (hrate : totalAssets s = s.supply)
    (hpause : s.paused = false) (hbal : A ≤ s.extBal u) :
    ∃ s1 s2, deposit u u A s = .ok (A, s1) ∧ redeem u u A s1 = .ok (A, s2) := by
  have hprev : previewDeposit s A = A := by
    unfold previewDeposit
    rw [hrate]
    exact convToSharesDown_rate1 _ _
  set sD : VaultState := { s with
    extBal := upd s.extBal u (s.extBal u - A),
    buffer := s.buffer + A,
    supply := s.supply + A,
    shares := upd s.shares u (s.shares u + A) } with hsD
  have hsd : superDeposit u u A s = .ok (A, sD) := by
    unfold superDeposit
    rw [if_neg (by simp [hpause]), if_neg (by omega), hprev]
  have hTAD : totalAssets sD = totalAssets s + A := by
    unfold totalAssets
    rw [@strategyAssetsLoop_ext sD s rfl rfl,
      show sD.strategies = s.strategies from rfl]
    have hb : sD.buffer = s.buffer + A := rfl
    omega
  have hsyncD : StratSync sD := hsync
  have hndD : sD.strategies.Nodup := hwf.1
  rcases autoDeployFunds_ok sD hndD hsyncD with
    ⟨s1, hrun1, hTA1, hsync1, hsup1, hsh1, hext1, hpa1, hstr1, hac1⟩
  have hdeposit : deposit u u A s = .ok (A, s1) := by
    unfold deposit
    rw [if_neg (by simp [hpause]), hsd]
    show (do
      let s2 ← autoDeployFunds sD
      (.ok (A, s2) : Except String (Nat × VaultState))) = .ok (A, s1)
    rw [hrun1]
    rfl
  -- facts about s1
  have hTA1' : totalAssets s1 = s.supply + A := by
    rw [hTA1, hTAD, hrate]
  have hsup1' : s1.supply = s.supply + A := by
    rw [hsup1]
  have hrate1 : totalAssets s1 = s1.supply := by
    rw [hTA1', hsup1']
  have hnd1 : s1.strategies.Nodup := by
    rw [hstr1]
    exact hwf.1
  have hall1 : ∀ a ∈ s1.strategies, (s1.info a).isActive := by
    intro a ha
    rw [hstr1] at ha
    rw [hac1 a]
    exact (hwf.2 a).mpr ha
  have hprev1 : previewRedeem s1 A = A := by
    unfold previewRedeem
    rw [hrate1, hsup1']
    exact convToAssetsDown_rate1 _ _
  rcases beforeWithdraw_sync A s1 hnd1 hsync1 hall1 (by omega) with
    ⟨s3, hrun3, hcov3, hTA3, _, hsup3, hsh3, _, _, _, _⟩
  have hshares3 : s3.shares u = s.shares u + A := by
    rw [hsh3, hsh1]
    exact upd_same _ _ _
  have hprev3 : previewRedeem s3 A = A := by
    unfold previewRedeem
    rw [hTA3, hTA1', hsup3, hsup1']
    exact convToAssetsDown_rate1 _ _
  set s4 : VaultState := { s3 with
    shares := upd s3.shares u (s3.shares u - A),
    supply := s3.supply - A,
    buffer := s3.buffer - A,
    extBal := upd s3.extBal u (s3.extBal u + A) } with hs4
  have hsr : superRedeem u u A s3 = .ok (A, s4) := by
    unfold superRedeem
    rw [if_neg (by omega), if_neg (by rw [hprev3]; omega), hprev3]
  have hredeem : redeem u u A s1 = .ok (A, s4) := by
    unfold redeem
    rw [hprev1]
    show (do
      let s3' ← beforeWithdraw A s1
      superRedeem u u A s3') = .ok (A, s4)
    rw [hrun3]
    show superRedeem u u A s3 = .ok (A, s4)
    exact hsr
  exact ⟨s1, s4, hdeposit, hredeem⟩

-- ============ Concrete instantiations ============

/-- A small well-formed vault used to instantiate the general theorems:
owner 1, depositor 2, one working strategy (address 5) at 50% weight in the
1:1 no-yield regime (30 idle units against 30 strategy shares, recorded
deposit 30), buffer 2, vault supply 32 = total managed assets. -/
def wVault : VaultState := {
  vaultAddr := 10, owner := 1, paused := false, buffer := 2, supply := 32,
  shares := fun x => if x = 2 then 32 else 0,
  extBal := fun x => if x = 2 then 777 else 0,
  strategies := [5],
  info := fun x => if x = 5 then ⟨5000, 30, true⟩ else ⟨0, 0, false⟩,
  totalAllocation := 5000, minLiquidity := 1,
  allowance := fun _ => 0,
  strat := fun x => if x = 5 then ⟨1, 10, false, 30, 30, false⟩
                    else ⟨1, 10, false, 0, 0, false⟩ }

theorem wVault_wf : WF wVault := by
  constructor
  · decide
  · intro a
    by_cases h : a = 5 <;> simp [wVault, upd, h]

theorem withdraw_exceeding_live_strategy_assets_reverts_witness :
    withdraw 2 2 100 wVault = .error "insufficient strategy liquidity" :=
  withdraw_exceeding_live_strategy_assets_reverts wVault 2 2 100
    (by decide) (by decide)

theorem allocation_invariant_preserved_witness :
    (activeAllocSum (applyAdminOps wVault
        [AdminOp.add 7 4000, AdminOp.reweight 5 600, AdminOp.remove 7])
      = (applyAdminOps wVault
        [AdminOp.add 7 4000, AdminOp.reweight 5 600, AdminOp.remove 7]).totalAllocation) ∧
    (applyAdminOps wVault
        [AdminOp.add 7 4000, AdminOp.reweight 5 600, AdminOp.remove 7]).totalAllocation
      ≤ 10000 ∧
    (addStrategy wVault.owner 9 8000 wVault).isOk = false := by
  have h := allocation_invariant_preserved wVault wVault_wf ⟨by decide, by decide⟩
  exact ⟨(h.1 _).1, (h.1 _).2, h.2.1 9 8000 (by decide)⟩

/-- A two-strategy vault for exercising the deployment pass: 1000 units in
the buffer, `minLiquidity` of one unit, strategies 5 (50% weight) and
7 (30% weight), both empty and working. -/
def wAuto : VaultState := {
  vaultAddr := 10, owner := 1, paused := false, buffer := 1000, supply := 1000,
  shares := fun x => if x = 2 then 1000 else 0,
  extBal := fun _ => 0,
  strategies := [5, 7],
  info := fun x => if x = 5 then ⟨5000, 0, true⟩
          else if x = 7 then ⟨3000, 0, true⟩ else ⟨0, 0, false⟩,
  totalAllocation := 8000, minLiquidity := 1,
  allowance := fun _ => 0,
  strat := fun _ => ⟨1, 10, false, 0, 0, false⟩ }

theorem autoDeploy_amounts_and_scenarioA_witness :
    autoDeployFunds scenarioA = .ok scenarioA ∧
    (∃ s', autoDeployFunds wAuto = .ok s' ∧
      s'.buffer = bufAfter (totalAssets wAuto - wAuto.minLiquidity) wAuto.info
        wAuto.strategies wAuto.buffer ∧
      ∀ a ∈ wAuto.strategies, (s'.info a).totalDeposited =
        (wAuto.info a).totalDeposited +
          deployAmt (totalAssets wAuto - wAuto.minLiquidity) wAuto.info a
            (bufBefore (totalAssets wAuto - wAuto.minLiquidity) wAuto.info
              wAuto.strategies wAuto.buffer a)) :=
  ⟨autoDeploy_amounts_and_scenarioA.1 scenarioA (by decide),
   autoDeploy_amounts_and_scenarioA.2.1 wAuto (by decide) (by decide) (by decide)⟩

theorem deposit_redeem_round_trip_exact_witness :
    ∃ s1 s2, deposit 2 2 123 wVault = .ok (123, s1) ∧
      redeem 2 2 123 s1 = .ok (123, s2) :=
  deposit_redeem_round_trip_exact wVault 2 123 wVault_wf
    (by unfold StratSync; decide) (by decide) (by decide) (by decide)

theorem removeStrategy_evacuates_then_deregisters_witness :
    ∃ s', removeStrategy wVault.owner 5 wVault = .ok s' ∧
      (s'.info 5).isActive = false ∧
      5 ∉ s'.strategies ∧
      s'.totalAllocation + (wVault.info 5).targetAllocation
        = wVault.totalAllocation ∧
      s'.allowance 5 = 0 ∧
      ((wVault.info 5).totalDeposited > 0 → (wVault.strat 5).broken = false →
        (wVault.strat 5).supply ≠ 0 →
        (s'.info 5).totalDeposited = 0 ∧
        s'.buffer = wVault.buffer + convToAssetsDown
          (stratTotalAssets (wVault.strat 5)) (wVault.strat 5).supply
          (wVault.strat 5).supply ∧
        (s'.strat 5).supply = 0) :=
  removeStrategy_evacuates_then_deregisters wVault 5 wVault_wf (by decide)
    (by decide)

theorem pause_blocks_deposits_not_withdrawals_witness :
    deposit 2 2 5 { wVault with paused := true } = .error "EnforcedPause" ∧
    withdraw 2 2 1 (setPausedV wVault true)
      = (withdraw 2 2 1 wVault).map (fun p => (p.1, setPausedV p.2 true)) ∧
    stratDeposit 10 5 { wVault.strat 5 with paused := true }
      = .error "EnforcedPause" ∧
    stratWithdraw 10 1 (setPausedS (wVault.strat 5) true)
      = (stratWithdraw 10 1 (wVault.strat 5)).map
          (fun p => (p.1, setPausedS p.2 true)) := by
  have h := pause_blocks_deposits_not_withdrawals
  exact ⟨(h.1 { wVault with paused := true } 2 2 5 (by decide)).1,
    (h.2.1 wVault true 2 2 1).1,
    (h.2.2.1 { wVault.strat 5 with paused := true } 10 5 (by decide) (by decide)).1,
    (h.2.2.2 (wVault.strat 5) true 10 1).1⟩

theorem withdrawFromStrategy_preserves_price_witness :
    ∃ actual s', withdrawFromStrategy wVault 5 7 = .ok (actual, s') ∧
      totalAssets s' = totalAssets wVault ∧
      s'.supply = wVault.supply ∧
      s'.buffer = wVault.buffer + actual ∧
      stratTotalAssets (s'.strat 5) + actual = stratTotalAssets (wVault.strat 5) ∧
      (s'.info 5).totalDeposited = (wVault.info 5).totalDeposited - actual ∧
      previewRedeem s' 1 = previewRedeem wVault 1 :=
  withdrawFromStrategy_preserves_price wVault 5 7 (by decide) (by decide)
    (by decide) (by decide) (by decide)

end Vault
